import Mathlib

/-!
Verification of the hex-chess evaluation and search core.

Shallow embedding of `src/engine.py` (static evaluation) and
`src/search_engine.py` (iterative-deepening minimax with alpha-beta
pruning) into Lean 4.

Modelling conventions:
* Python numbers are modelled exactly: scores are rationals (`ℚ`), since the
  tapered king bonus mixes integers with the fractional game phase; Python's
  `float('-inf')`/`float('inf')` sentinels are modelled by the type `EScore`
  (rationals extended with two infinities).
* The board object (`HexBoard`) and the legal-move/status collaborator
  (`MoveValidator`) are external to the two source files; their data is
  modelled by the `Board` structure (tiles plus the mutable fields the spec
  lists) and their behaviour by an `Env` record of oracle functions.
* Python reference semantics (in-place mutation, `copy.deepcopy`, the
  `self.move_validator.board = board` aliasing assignment) is modelled by an
  explicit heap of boards (`SState`): a board object is an index into the
  heap, `deepcopy` allocates a fresh index, mutation writes at an index.
* Wall-clock time checks (`time.time() - start_time > max_time`) are modelled
  by an oracle `timeUp : Nat → Bool` consulted once per executed check, in
  program order.
-/

/-- Axial hexagonal coordinate (q, r). -/
structure Coord where
  q : Int
  r : Int
deriving DecidableEq, Repr

inductive Color where
  | white
  | black
deriving DecidableEq, Repr

inductive PieceName where
  | pawn
  | knight
  | bishop
  | rook
  | queen
  | king
deriving DecidableEq, Repr

/-- Content of one board tile: empty, or a piece `(color, piece_name)`.
`has_piece()` is `Option.isSome`, `get_piece()` is the payload. -/
abbrev Tile := Option (Color × PieceName)

/-- The full mutable game state of the board collaborator: occupancy of every
coordinate (`tiles`, as the dict `board.tiles`), side to move
(`current_turn`), en-passant target, pending-promotion marker (truthiness of
`board.pending_promotion` is `Option.isSome`), and captured-piece records. -/
structure Board where
  tiles : List (Coord × Tile)
  current_turn : Color
  en_passant : Option Coord
  pending_promotion : Option Coord
  captured_pieces : List (Color × PieceName)
deriving DecidableEq, Repr

instance : Inhabited Board := ⟨⟨[], Color.white, none, none, []⟩⟩

/-- A move `((from_q, from_r), (to_q, to_r))`. -/
abbrev Move := Coord × Coord

/-- Result of `MoveValidator.get_game_status()`; `ongoing` stands for any
status string other than `'checkmate'`, `'stalemate'`, `'draw'` (the code
only tests for those three). -/
inductive GameStatus where
  | ongoing
  | checkmate
  | stalemate
  | draw
deriving DecidableEq, Repr

/-- The external collaborators consumed by the two source files, as pure
functions of a board value: `board.move_piece`, `board.promote_pawn`,
`board.is_promotion_square`, `MoveValidator.get_legal_moves_with_check`
(a fresh validator for a board is a pure function of that board), and
`MoveValidator.get_game_status`. -/
structure Env where
  move_piece : Board → Coord → Coord → Board
  promote_pawn : Board → PieceName → Board
  is_promotion_square : Board → Coord → Color → Bool
  legal_moves_with_check : Board → Coord → List Coord
  game_status : Board → GameStatus

/-- Python floats restricted to exact rationals plus `float('-inf')` and
`float('inf')`, the two sentinels the search uses. -/
inductive EScore where
  | ninf
  | fin (x : ℚ)
  | pinf
deriving DecidableEq, Repr

namespace EScore

def ble : EScore → EScore → Bool
  | ninf, _ => true
  | fin _, ninf => false
  | fin a, fin b => decide (a ≤ b)
  | fin _, pinf => true
  | pinf, pinf => true
  | pinf, _ => false

instance : LE EScore := ⟨fun a b => ble a b = true⟩

theorem le_def (a b : EScore) : (a ≤ b) = (ble a b = true) := rfl

instance : LinearOrder EScore where
  le_refl a := by cases a <;> simp [le_def, ble]
  le_trans a b c := by
    cases a <;> cases b <;> cases c <;> simp [le_def, ble]
    exact le_trans
  le_antisymm a b := by
    cases a <;> cases b <;> simp [le_def, ble]
    exact le_antisymm
  le_total a b := by
    cases a <;> cases b <;> simp [le_def, ble]
    exact le_total _ _
  decidableLE a b := decidable_of_iff (ble a b = true) Iff.rfl

@[simp] theorem ninf_le (a : EScore) : ninf ≤ a := by cases a <;> simp [le_def, ble]

@[simp] theorem le_pinf (a : EScore) : a ≤ pinf := by cases a <;> simp [le_def, ble]

@[simp] theorem fin_le_fin {a b : ℚ} : (fin a ≤ fin b) ↔ a ≤ b := by
  simp [le_def, ble]

@[simp] theorem not_fin_le_ninf (a : ℚ) : ¬ (fin a ≤ ninf) := by
  simp [le_def, ble]

@[simp] theorem not_pinf_le_fin (a : ℚ) : ¬ (pinf ≤ fin a) := by
  simp [le_def, ble]

@[simp] theorem not_pinf_le_ninf : ¬ (pinf ≤ (ninf : EScore)) := by
  simp [le_def, ble]

@[simp] theorem fin_lt_fin {a b : ℚ} : (fin a < fin b) ↔ a < b := by
  rw [lt_iff_not_ge, ge_iff_le, fin_le_fin, not_le]

@[simp] theorem ninf_lt_fin (a : ℚ) : ninf < fin a := by
  rw [lt_iff_not_ge, ge_iff_le]
  exact not_fin_le_ninf a

@[simp] theorem fin_lt_pinf (a : ℚ) : fin a < pinf := by
  rw [lt_iff_not_ge, ge_iff_le]
  exact not_pinf_le_fin a

@[simp] theorem ninf_lt_pinf : (ninf : EScore) < pinf := by
  rw [lt_iff_not_ge, ge_iff_le]
  exact not_pinf_le_ninf

instance decLe : ∀ a b : EScore, Decidable (a ≤ b) := fun a b =>
  decidable_of_iff (ble a b = true) Iff.rfl

instance decLt : ∀ a b : EScore, Decidable (a < b) := fun a b =>
  decidable_of_iff (¬ b ≤ a) (lt_iff_not_ge a b).symm

/-- The element is a finite rational (not an infinity). -/
def IsFin : EScore → Prop
  | fin _ => True
  | _ => False

@[simp] theorem isFin_fin (x : ℚ) : IsFin (fin x) := trivial

@[simp] theorem not_isFin_ninf : ¬ IsFin ninf := id

@[simp] theorem not_isFin_pinf : ¬ IsFin pinf := id

theorem IsFin.max {a b : EScore} (hb : IsFin b) (ha : a ≠ pinf) : IsFin (max a b) := by
  rcases max_choice a b with h | h <;> rw [h]
  · cases a <;> cases b <;> simp_all [max_def, le_def, ble]
  · exact hb

theorem IsFin.min {a b : EScore} (hb : IsFin b) (ha : a ≠ ninf) : IsFin (min a b) := by
  rcases min_choice a b with h | h <;> rw [h]
  · cases a <;> cases b <;> simp_all [min_def, le_def, ble]
  · exact hb

theorem IsFin.ne_pinf {a : EScore} (h : IsFin a) : a ≠ pinf := by
  cases a <;> simp_all

theorem IsFin.ne_ninf {a : EScore} (h : IsFin a) : a ≠ ninf := by
  cases a <;> simp_all

end EScore

/-! ## Embedding of `src/engine.py` (`ChessEngine`) -/

namespace ChessEngine

/-- `ChessEngine.PIECE_VALUES`: basic piece values in centipawns. -/
def PIECE_VALUES : PieceName → Int
  | .pawn => 100
  | .knight => 320
  | .bishop => 330
  | .rook => 500
  | .queen => 900
  | .king => 20000

/-- `ChessEngine.PAWN_PST` (dict, for white; Python dict `{(q, r): bonus}`). -/
def PAWN_PST : List (Coord × Int) :=
  [(⟨-4, 5⟩, 0), (⟨-3, 4⟩, 0), (⟨-2, 3⟩, 0), (⟨-1, 2⟩, 0), (⟨0, 1⟩, 0),
   (⟨1, 1⟩, 0), (⟨2, 1⟩, 0), (⟨3, 1⟩, 0), (⟨4, 1⟩, 0),
   (⟨-4, 4⟩, 5), (⟨-3, 3⟩, 5), (⟨-2, 2⟩, 5), (⟨-1, 1⟩, 5), (⟨0, 0⟩, 10),
   (⟨1, 0⟩, 10), (⟨2, 0⟩, 5), (⟨3, 0⟩, 5), (⟨4, 0⟩, 5),
   (⟨-3, 2⟩, 10), (⟨-2, 1⟩, 15), (⟨-1, 0⟩, 20), (⟨0, -1⟩, 25),
   (⟨1, -1⟩, 20), (⟨2, -1⟩, 15), (⟨3, -1⟩, 10),
   (⟨-2, 0⟩, 20), (⟨-1, -1⟩, 30), (⟨0, -2⟩, 35), (⟨1, -2⟩, 30), (⟨2, -2⟩, 20),
   (⟨-1, -2⟩, 40), (⟨0, -3⟩, 50), (⟨1, -3⟩, 40),
   (⟨0, -4⟩, 60), (⟨1, -4⟩, 60)]

/-- `ChessEngine.KNIGHT_PST`. -/
def KNIGHT_PST : List (Coord × Int) :=
  [(⟨0, 0⟩, 30), (⟨1, -1⟩, 25), (⟨-1, 1⟩, 25), (⟨0, 1⟩, 20), (⟨1, 0⟩, 20),
   (⟨0, -1⟩, 20), (⟨-1, 0⟩, 20),
   (⟨1, 1⟩, 15), (⟨2, -1⟩, 15), (⟨2, -2⟩, 10), (⟨-1, 2⟩, 15), (⟨-2, 2⟩, 10),
   (⟨1, -2⟩, 15), (⟨-1, -1⟩, 10), (⟨-2, 1⟩, 10),
   (⟨3, 2⟩, -10), (⟨4, 1⟩, -20), (⟨-3, 5⟩, -20), (⟨-4, 5⟩, -30),
   (⟨3, -5⟩, -20), (⟨4, -5⟩, -30), (⟨-3, -2⟩, -10)]

/-- `ChessEngine.BISHOP_PST`. -/
def BISHOP_PST : List (Coord × Int) :=
  [(⟨0, 0⟩, 20), (⟨1, -1⟩, 15), (⟨-1, 1⟩, 15),
   (⟨0, 1⟩, 10), (⟨1, 0⟩, 10), (⟨0, -1⟩, 10), (⟨-1, 0⟩, 10),
   (⟨2, -2⟩, 15), (⟨-2, 2⟩, 15), (⟨1, 1⟩, 10), (⟨-1, -1⟩, 10),
   (⟨4, 1⟩, -10), (⟨-4, 5⟩, -10), (⟨4, -5⟩, -10), (⟨-4, -1⟩, -10)]

/-- `ChessEngine.ROOK_PST`. -/
def ROOK_PST : List (Coord × Int) :=
  [(⟨3, 2⟩, 0), (⟨-3, 5⟩, 0),
   (⟨0, -1⟩, 10), (⟨1, -1⟩, 10), (⟨-1, -1⟩, 10),
   (⟨0, -2⟩, 15), (⟨1, -2⟩, 15), (⟨-1, -2⟩, 15),
   (⟨0, -3⟩, 20), (⟨1, -3⟩, 20), (⟨-1, -3⟩, 20),
   (⟨0, -4⟩, 25), (⟨1, -4⟩, 25)]

/-- `ChessEngine.QUEEN_PST`. -/
def QUEEN_PST : List (Coord × Int) :=
  [(⟨0, 0⟩, 10), (⟨1, -1⟩, 10), (⟨-1, 1⟩, 10),
   (⟨0, 1⟩, 5), (⟨1, 0⟩, 5), (⟨0, -1⟩, 5), (⟨-1, 0⟩, 5),
   (⟨-1, 5⟩, -20)]

/-- `ChessEngine.KING_PST_MG`. -/
def KING_PST_MG : List (Coord × Int) :=
  [(⟨1, 4⟩, 20), (⟨0, 4⟩, 15), (⟨2, 3⟩, 10),
   (⟨0, 0⟩, -40), (⟨1, -1⟩, -30), (⟨-1, 1⟩, -30),
   (⟨0, 1⟩, -20), (⟨1, 0⟩, -20), (⟨0, -1⟩, -20), (⟨-1, 0⟩, -20)]

/-- `ChessEngine.KING_PST_EG`. -/
def KING_PST_EG : List (Coord × Int) :=
  [(⟨0, 0⟩, 30), (⟨1, -1⟩, 25), (⟨-1, 1⟩, 25),
   (⟨0, 1⟩, 20), (⟨1, 0⟩, 20), (⟨0, -1⟩, 20), (⟨-1, 0⟩, 20),
   (⟨1, 4⟩, 0), (⟨0, 4⟩, 0), (⟨2, 3⟩, 5)]

/-- Python `pst.get((q, r), 0)`: dictionary lookup with default 0. -/
def pstGet (pst : List (Coord × Int)) (q r : Int) : Int :=
  (pst.lookup ⟨q, r⟩).getD 0

/-- `ChessEngine.get_pst_bonus(piece_name, q, r, color, phase)`.
For non-king pieces the black coordinate is negated before lookup; the king
interpolates `phase * mg + (1 - phase) * eg` and sign-flips for black. -/
def get_pst_bonus (piece_name : PieceName) (q r : Int) (color : Color)
    (phase : ℚ) : ℚ :=
  match piece_name with
  | .king =>
      let mg_bonus : Int := (KING_PST_MG.lookup ⟨q, r⟩).getD 0
      let eg_bonus : Int := (KING_PST_EG.lookup ⟨q, r⟩).getD 0
      let bonus : ℚ := phase * mg_bonus + (1 - phase) * eg_bonus
      if color = .white then bonus else -bonus
  | pn =>
      let pst : List (Coord × Int) :=
        match pn with
        | .pawn => PAWN_PST
        | .knight => KNIGHT_PST
        | .bishop => BISHOP_PST
        | .rook => ROOK_PST
        | _ => QUEEN_PST
      match color with
      | .white => (pstGet pst q r : ℚ)
      | .black => (pstGet pst (-q) (-r) : ℚ)

/-- `phase_weights` dict inside `calculate_game_phase`. -/
def phase_weights : PieceName → Nat
  | .pawn => 0
  | .knight => 1
  | .bishop => 1
  | .rook => 2
  | .queen => 4
  | .king => 0

/-- Weight contributed by one tile of `board.tiles.values()` in
`calculate_game_phase` (0 for an empty tile). -/
def tilePhaseWeight (t : Tile) : Nat :=
  match t with
  | some (_, piece_name) => phase_weights piece_name
  | none => 0

/-- `ChessEngine.calculate_game_phase(board)`:
`min(1.0, current_phase / 24)` where `current_phase` sums `phase_weights`
over every occupied tile. -/
def calculate_game_phase (board : Board) : ℚ :=
  let current_phase : Nat := (board.tiles.map (fun ct => tilePhaseWeight ct.2)).sum
  min 1 ((current_phase : ℚ) / 24)

/-- `board.get_tile(q, r)`: `none` when the coordinate is off the board. -/
def get_tile (board : Board) (q r : Int) : Option Tile :=
  board.tiles.lookup ⟨q, r⟩

/-- The rank list iterated by `_is_passed_pawn`: Python
`range(r - 1, -6, -1)` for white (ranks strictly in front, down to `-5`)
and `range(r + 1, 6)` for black (up to `5`). -/
def checkRRange (color : Color) (r : Int) : List Int :=
  match color with
  | .white => (List.range (r + 5).toNat).map (fun i : Nat => r - 1 - (i : Int))
  | .black => (List.range (5 - r).toNat).map (fun i : Nat => r + 1 + (i : Int))

/-- `ChessEngine._is_passed_pawn(board, q, r, color)`: no enemy pawn on the
pawn's file or either adjacent file, on any rank strictly in front. -/
def _is_passed_pawn (board : Board) (q r : Int) (color : Color) : Bool :=
  let enemy_color : Color := if color = .white then .black else .white
  [q - 1, q, q + 1].all fun check_q =>
    (checkRRange color r).all fun check_r =>
      match get_tile board check_q check_r with
      | none => true
      | some t =>
          match t with
          | none => true
          | some (piece_color, piece_name) =>
              !(piece_color = enemy_color && piece_name = PieceName.pawn)

/-- The pawn coordinates of `color` collected by
`evaluate_pawn_structure` (iteration order of `board.tiles.items()`). -/
def pawnPositions (board : Board) (color : Color) : List Coord :=
  board.tiles.filterMap fun ct =>
    match ct.2 with
    | some (piece_color, piece_name) =>
        if piece_color = color ∧ piece_name = PieceName.pawn then some ct.1
        else none
    | none => none

/-- Loop body of `evaluate_pawn_structure` for one pawn at `(q, r)`:
doubled-pawn penalty, isolated-pawn penalty, passed-pawn bonus. -/
def pawnStructureStep (board : Board) (color : Color)
    (pawn_positions : List Coord) (score : Int) (c : Coord) : Int :=
  let q := c.q
  let r := c.r
  let score1 :=
    if (pawn_positions.filter (fun p => p.q = q ∧ p ≠ c)) ≠ [] then score - 15
    else score
  let has_neighbor :=
    pawn_positions.any fun p =>
      if p ≠ c then decide (p.q = q - 1 ∨ p.q = q + 1) else false
  let score2 := if !has_neighbor then score1 - 10 else score1
  if _is_passed_pawn board q r color then
    let advancement : Int := if color = .white then 5 - r else r + 5
    score2 + (20 + advancement * 5)
  else score2

/-- `ChessEngine.evaluate_pawn_structure(board, color)`. -/
def evaluate_pawn_structure (board : Board) (color : Color) : Int :=
  let pawn_positions := pawnPositions board color
  pawn_positions.foldl (pawnStructureStep board color pawn_positions) 0

/-- Loop body of `evaluate` for one tile: accumulate signed
`material + PST` into the score and `abs(value)` (king excluded) into the
total material. -/
def evaluateStep (phase : ℚ) (acc : ℚ × Int) (ct : Coord × Tile) : ℚ × Int :=
  match ct.2 with
  | none => acc
  | some (color, piece_name) =>
      let value : Int := PIECE_VALUES piece_name
      let total_material :=
        acc.2 + (if piece_name ≠ PieceName.king then value.natAbs else 0)
      let pst_bonus := get_pst_bonus piece_name ct.1.q ct.1.r color phase
      let piece_score : ℚ := (value : ℚ) + pst_bonus
      let score :=
        if color = .white then acc.1 + piece_score else acc.1 - piece_score
      (score, total_material)

/-- `ChessEngine.evaluate(board)` → `(score, total_material)`. -/
def evaluate (board : Board) : ℚ × Int :=
  let phase := calculate_game_phase board
  let acc := board.tiles.foldl (evaluateStep phase) (0, 0)
  let white_pawn_score := evaluate_pawn_structure board .white
  let black_pawn_score := evaluate_pawn_structure board .black
  let score := acc.1 + ((white_pawn_score : ℚ) - (black_pawn_score : ℚ))
  let score :=
    if board.current_turn = .white then score + 10 else score - 10
  (score, acc.2)

end ChessEngine

/-! ## Embedding of `src/search_engine.py` (`SearchEngine`)

First as pure functions of a board value (the value semantics of the
deep-copy discipline), then as heap-passing functions mirroring Python's
object references; the two are related by simulation theorems below. -/

namespace SearchEngine

/-- `center_hexes` list in `_order_moves`. -/
def center_hexes : List Coord :=
  [⟨0, 0⟩, ⟨1, -1⟩, ⟨-1, 1⟩, ⟨0, 1⟩, ⟨1, 0⟩, ⟨0, -1⟩, ⟨-1, 0⟩]

/-- `move_score` inside `_order_moves`: capture bonus (MVV-LVA), pawn
promotion bonus, center-control bonus, additively.  The `none` inner branch
(moving from an on-board but empty tile) models an unreachable case: there
Python would fault unpacking `get_piece()`; every move the engine scores
originates from an occupied tile (see `_get_all_legal_moves`). -/
def move_score (env : Env) (board : Board) (move : Move) : Int :=
  match ChessEngine.get_tile board move.1.q move.1.r,
        ChessEngine.get_tile board move.2.q move.2.r with
  | some from_tile, some to_tile =>
      (match from_tile with
       | none => 0
       | some (piece_color, piece_name) =>
           let score : Int := 0
           let score : Int :=
             match to_tile with
             | some (_, victim_piece) =>
                 let victim_value := ChessEngine.PIECE_VALUES victim_piece
                 let attacker_value := ChessEngine.PIECE_VALUES piece_name
                 score + (10000 + (victim_value * 10 - attacker_value))
             | none => score
           let score : Int :=
             if piece_name = PieceName.pawn &&
                env.is_promotion_square board move.2 piece_color then
               score + 9000
             else score
           if move.2 ∈ center_hexes then score + 50 else score)
  | _, _ => 0

/-- Stable descending insertion: the new element `m` (earlier in the input)
goes in front of the first element whose score is not strictly greater. -/
def insertDesc (score : Move → Int) (m : Move) : List Move → List Move
  | [] => [m]
  | x :: xs =>
      if score m < score x then x :: insertDesc score m xs else m :: x :: xs

/-- Stable descending sort by score.  Python's
`sorted(moves, key=move_score, reverse=True)` is stable and sorts
descending; a stable descending sort is unique, so this insertion sort is
extensionally that function. -/
def sortDesc (score : Move → Int) : List Move → List Move
  | [] => []
  | m :: ms => insertDesc score m (sortDesc score ms)

/-- `SearchEngine._order_moves(board, moves)`. -/
def _order_moves (env : Env) (board : Board) (moves : List Move) : List Move :=
  sortDesc (move_score env board) moves

/-- `SearchEngine._get_all_legal_moves(board, color)`: for each occupied
tile of `color`, every destination returned by a fresh validator's
`get_legal_moves_with_check`, in tile-iteration order. -/
def _get_all_legal_moves (env : Env) (board : Board) (color : Color) :
    List Move :=
  board.tiles.flatMap fun ct =>
    match ct.2 with
    | none => []
    | some (piece_color, _) =>
        if piece_color = color then
          (env.legal_moves_with_check board ct.1).map fun dst => (ct.1, dst)
        else []

/-- `SearchEngine._make_move_with_auto_promotion`: `board.move_piece`, then
auto-promote to queen if a promotion is pending. -/
def _make_move_with_auto_promotion (env : Env) (board : Board)
    (from_pos to_pos : Coord) : Board :=
  let board1 := env.move_piece board from_pos to_pos
  if board1.pending_promotion.isSome then env.promote_pawn board1 .queen
  else board1

/-- The mate-score magnitude `20000 - (10 - depth)` of `_minimax`. -/
def mate_magnitude (depth : Nat) : ℚ := 20000 - (10 - (depth : ℚ))

/-- The maximizing move-loop of `_minimax` (value semantics): running
maximum `max_eval`, alpha update, and beta cutoff after each child. -/
def ab_loop_max (env : Env) (board : Board)
    (child : Board → EScore → EScore → EScore) :
    List Move → EScore → EScore → EScore → EScore
  | [], max_eval, _, _ => max_eval
  | move :: rest, max_eval, alpha, beta =>
      let board_copy := _make_move_with_auto_promotion env board move.1 move.2
      let eval_score := child board_copy alpha beta
      let max_eval' := max max_eval eval_score
      let alpha' := max alpha eval_score
      if beta ≤ alpha' then max_eval'
      else ab_loop_max env board child rest max_eval' alpha' beta

/-- The minimizing move-loop of `_minimax` (value semantics). -/
def ab_loop_min (env : Env) (board : Board)
    (child : Board → EScore → EScore → EScore) :
    List Move → EScore → EScore → EScore → EScore
  | [], min_eval, _, _ => min_eval
  | move :: rest, min_eval, alpha, beta =>
      let board_copy := _make_move_with_auto_promotion env board move.1 move.2
      let eval_score := child board_copy alpha beta
      let min_eval' := min min_eval eval_score
      let beta' := min beta eval_score
      if beta' ≤ alpha then min_eval'
      else ab_loop_min env board child rest min_eval' alpha beta'

/-- `SearchEngine._minimax(board, depth, alpha, beta, maximizing)` under
value semantics: depth-0 leaf evaluation; mate/stalemate/draw scores; legal
move enumeration; move ordering; alpha-beta loops. -/
def _minimax (env : Env) : Nat → Board → EScore → EScore → Bool → EScore
  | 0, board, _, _, _ => .fin (ChessEngine.evaluate board).1
  | depth + 1, board, alpha, beta, maximizing =>
      match env.game_status board with
      | .checkmate =>
          let mate_score := mate_magnitude (depth + 1)
          if maximizing then .fin (-mate_score) else .fin mate_score
      | .stalemate => .fin 0
      | .draw => .fin 0
      | .ongoing =>
          let color := if maximizing then Color.white else Color.black
          let legal_moves := _get_all_legal_moves env board color
          if legal_moves = [] then .fin 0
          else
            let ordered := _order_moves env board legal_moves
            if maximizing then
              ab_loop_max env board
                (fun b a c => _minimax env depth b a c false) ordered
                .ninf alpha beta
            else
              ab_loop_min env board
                (fun b a c => _minimax env depth b a c true) ordered
                .pinf alpha beta

/-- Maximizing move-loop without pruning (exhaustive minimax). -/
def full_loop_max (env : Env) (board : Board) (child : Board → EScore) :
    List Move → EScore → EScore
  | [], max_eval => max_eval
  | move :: rest, max_eval =>
      let board_copy := _make_move_with_auto_promotion env board move.1 move.2
      full_loop_max env board child rest (max max_eval (child board_copy))

/-- Minimizing move-loop without pruning (exhaustive minimax). -/
def full_loop_min (env : Env) (board : Board) (child : Board → EScore) :
    List Move → EScore → EScore
  | [], min_eval => min_eval
  | move :: rest, min_eval =>
      let board_copy := _make_move_with_auto_promotion env board move.1 move.2
      full_loop_min env board child rest (min min_eval (child board_copy))

/-- Exhaustive minimax over the same tree as `_minimax` but with the
alpha-beta updates and the `beta <= alpha` cutoff removed — the reference
the spec's alpha-beta-equivalence property compares against. -/
def minimax_full (env : Env) : Nat → Board → Bool → EScore
  | 0, board, _ => .fin (ChessEngine.evaluate board).1
  | depth + 1, board, maximizing =>
      match env.game_status board with
      | .checkmate =>
          let mate_score := mate_magnitude (depth + 1)
          if maximizing then .fin (-mate_score) else .fin mate_score
      | .stalemate => .fin 0
      | .draw => .fin 0
      | .ongoing =>
          let color := if maximizing then Color.white else Color.black
          let legal_moves := _get_all_legal_moves env board color
          if legal_moves = [] then .fin 0
          else
            let ordered := _order_moves env board legal_moves
            if maximizing then
              full_loop_max env board
                (fun b => minimax_full env depth b false) ordered .ninf
            else
              full_loop_min env board
                (fun b => minimax_full env depth b true) ordered .pinf

end SearchEngine

namespace SearchEngine

/-- The root move-loop of `find_best_move` (value semantics): one time-budget
check per move (consuming one oracle tick), then deep-copy, move, search with
a fresh `(-inf, +inf)` window at `current_depth - 1`, and keep the move with
the best score for `color` (strict improvement, so the earliest best is
kept). -/
def root_moves_loop (env : Env) (board : Board) (color : Color)
    (current_depth : Nat) (timeUp : Nat → Bool) :
    List Move → Option Move × EScore → Nat → (Option Move × EScore) × Nat
  | [], acc, tick => (acc, tick)
  | move :: rest, acc, tick =>
      if timeUp tick then (acc, tick + 1)
      else
        let tick := tick + 1
        let board_copy :=
          _make_move_with_auto_promotion env board move.1 move.2
        let score := _minimax env (current_depth - 1) board_copy .ninf .pinf
          (board_copy.current_turn = .white)
        let upd : Bool :=
          if color = .white then decide (acc.2 < score)
          else decide (score < acc.2)
        let acc' := if upd then (some move, score) else acc
        root_moves_loop env board color current_depth timeUp rest acc' tick

/-- The iterative-deepening loop of `find_best_move` (value semantics):
`fuel` counts the remaining depths, `current_depth` the next one; one
time-budget check per depth (a positive check breaks out of the whole
loop). -/
def iterative_deepening (env : Env) (board : Board) (color : Color)
    (timeUp : Nat → Bool) (moves : List Move) :
    Nat → Nat → Option Move × EScore → Nat → (Option Move × EScore) × Nat
  | _, 0, acc, tick => (acc, tick)
  | current_depth, fuel + 1, acc, tick =>
      if timeUp tick then (acc, tick + 1)
      else
        let r :=
          root_moves_loop env board color current_depth timeUp moves acc
            (tick + 1)
        iterative_deepening env board color timeUp moves (current_depth + 1)
          fuel r.1 r.2

/-- `SearchEngine.find_best_move(board, depth, max_time)` under value
semantics, also exposing the best score (`.2`); the Python function returns
only the move. -/
def find_best_move (env : Env) (board : Board) (depth : Nat)
    (timeUp : Nat → Bool) : Option Move × EScore :=
  let color := board.current_turn
  let legal_moves := _get_all_legal_moves env board color
  if legal_moves = [] then
    (none, if color = .white then EScore.ninf else EScore.pinf)
  else
    let legal_moves := _order_moves env board legal_moves
    let best_score := if color = .white then EScore.ninf else EScore.pinf
    (iterative_deepening env board color timeUp legal_moves 1 depth
      (none, best_score) 0).1

/-- Root move-loop with the pruning search replaced by exhaustive
`minimax_full` (same fresh-window call shape). -/
def root_moves_loop_full (env : Env) (board : Board) (color : Color)
    (current_depth : Nat) (timeUp : Nat → Bool) :
    List Move → Option Move × EScore → Nat → (Option Move × EScore) × Nat
  | [], acc, tick => (acc, tick)
  | move :: rest, acc, tick =>
      if timeUp tick then (acc, tick + 1)
      else
        let tick := tick + 1
        let board_copy :=
          _make_move_with_auto_promotion env board move.1 move.2
        let score := minimax_full env (current_depth - 1) board_copy
          (board_copy.current_turn = .white)
        let upd : Bool :=
          if color = .white then decide (acc.2 < score)
          else decide (score < acc.2)
        let acc' := if upd then (some move, score) else acc
        root_moves_loop_full env board color current_depth timeUp rest acc'
          tick

/-- Iterative deepening over `root_moves_loop_full`. -/
def iterative_deepening_full (env : Env) (board : Board) (color : Color)
    (timeUp : Nat → Bool) (moves : List Move) :
    Nat → Nat → Option Move × EScore → Nat → (Option Move × EScore) × Nat
  | _, 0, acc, tick => (acc, tick)
  | current_depth, fuel + 1, acc, tick =>
      if timeUp tick then (acc, tick + 1)
      else
        let r :=
          root_moves_loop_full env board color current_depth timeUp moves acc
            (tick + 1)
        iterative_deepening_full env board color timeUp moves
          (current_depth + 1) fuel r.1 r.2

/-- `find_best_move` with the exhaustive (pruning-free) search at every
root call — the reference of the alpha-beta-equivalence property. -/
def find_best_move_full (env : Env) (board : Board) (depth : Nat)
    (timeUp : Nat → Bool) : Option Move × EScore :=
  let color := board.current_turn
  let legal_moves := _get_all_legal_moves env board color
  if legal_moves = [] then
    (none, if color = .white then EScore.ninf else EScore.pinf)
  else
    let legal_moves := _order_moves env board legal_moves
    let best_score := if color = .white then EScore.ninf else EScore.pinf
    (iterative_deepening_full env board color timeUp legal_moves 1 depth
      (none, best_score) 0).1

end SearchEngine

/-! ## Reference-semantics (heap) embedding of `SearchEngine`

A Python board object is an index into a heap of `Board` values;
`copy.deepcopy` allocates a fresh index, in-place mutation writes at an
index, and `self.move_validator.board = board` stores the index. -/

/-- Mutable state: the heap of all board objects, the board references held
by `self.move_validator` and its `move_generator`, and the engine's own
mutable fields (`nodes_searched`, `best_move_this_iteration`).
`enum_calls` counts the executed calls of `_get_all_legal_moves`, making the
sequence of legal-move-collaborator enumerations observable. -/
structure SState where
  heap : List Board
  validator_board : Nat
  generator_board : Nat
  nodes_searched : Nat
  enum_calls : Nat
  best_move_this_iteration : Option Move
deriving DecidableEq, Repr

/-- Dereference a board object (junk default for a dangling reference). -/
def readB (s : SState) (ref : Nat) : Board := (s.heap[ref]?).getD default

/-- In-place mutation of the board object `ref`. -/
def writeB (s : SState) (ref : Nat) (b : Board) : SState :=
  { s with heap := s.heap.set ref b }

/-- `copy.deepcopy`: allocate a fresh board object with the given value. -/
def allocB (s : SState) (b : Board) : Nat × SState :=
  (s.heap.length, { s with heap := s.heap ++ [b] })

namespace SearchEngine

/-- Heap version of `_get_all_legal_moves`: the same list as the pure
function on the board object's current value, plus the enumeration-counter
bump. -/
def _get_all_legal_moves_s (env : Env) (board : Board) (color : Color)
    (s : SState) : List Move × SState :=
  (_get_all_legal_moves env board color,
   { s with enum_calls := s.enum_calls + 1 })

/-- Heap version of `_make_move_with_auto_promotion`: mutate the board
object `ref` in place. -/
def _make_move_s (env : Env) (ref : Nat) (move : Move) (s : SState) :
    SState :=
  writeB s ref
    (_make_move_with_auto_promotion env (readB s ref) move.1 move.2)

/-- Heap version of the maximizing move-loop of `_minimax`: deep-copy the
parent board, mutate the copy, recurse on the copy's reference. -/
def ab_loop_max_s (env : Env) (ref : Nat)
    (child : Nat → EScore → EScore → SState → EScore × SState) :
    List Move → EScore → EScore → EScore → SState → EScore × SState
  | [], max_eval, _, _, s => (max_eval, s)
  | move :: rest, max_eval, alpha, beta, s =>
      let a := allocB s (readB s ref)
      let s2 := _make_move_s env a.1 move a.2
      let r := child a.1 alpha beta s2
      let max_eval' := max max_eval r.1
      let alpha' := max alpha r.1
      if beta ≤ alpha' then (max_eval', r.2)
      else ab_loop_max_s env ref child rest max_eval' alpha' beta r.2

/-- Heap version of the minimizing move-loop of `_minimax`. -/
def ab_loop_min_s (env : Env) (ref : Nat)
    (child : Nat → EScore → EScore → SState → EScore × SState) :
    List Move → EScore → EScore → EScore → SState → EScore × SState
  | [], min_eval, _, _, s => (min_eval, s)
  | move :: rest, min_eval, alpha, beta, s =>
      let a := allocB s (readB s ref)
      let s2 := _make_move_s env a.1 move a.2
      let r := child a.1 alpha beta s2
      let min_eval' := min min_eval r.1
      let beta' := min beta r.1
      if beta' ≤ alpha then (min_eval', r.2)
      else ab_loop_min_s env ref child rest min_eval' alpha beta' r.2

/-- `SearchEngine._minimax` under reference semantics.  At depth > 0 it
first increments `nodes_searched`, then reassigns
`self.move_validator.board` and `self.move_validator.move_generator.board`
to its board argument, then checks game status, enumerates, orders, and
loops.  At depth 0 it only counts the node and evaluates. -/
def minimax_s (env : Env) :
    Nat → Nat → EScore → EScore → Bool → SState → EScore × SState
  | 0, ref, _, _, _, s =>
      let s := { s with nodes_searched := s.nodes_searched + 1 }
      (.fin (ChessEngine.evaluate (readB s ref)).1, s)
  | depth + 1, ref, alpha, beta, maximizing, s =>
      let board := readB s ref
      let s := { s with nodes_searched := s.nodes_searched + 1 }
      let s := { s with validator_board := ref, generator_board := ref }
      match env.game_status board with
      | .checkmate =>
          let mate_score := mate_magnitude (depth + 1)
          (if maximizing then .fin (-mate_score) else .fin mate_score, s)
      | .stalemate => (.fin 0, s)
      | .draw => (.fin 0, s)
      | .ongoing =>
          let color := if maximizing then Color.white else Color.black
          let p := _get_all_legal_moves_s env board color s
          if p.1 = [] then (.fin 0, p.2)
          else
            let ordered := _order_moves env board p.1
            if maximizing then
              ab_loop_max_s env ref
                (fun r a c st => minimax_s env depth r a c false st) ordered
                .ninf alpha beta p.2
            else
              ab_loop_min_s env ref
                (fun r a c st => minimax_s env depth r a c true st) ordered
                .pinf alpha beta p.2

end SearchEngine

namespace SearchEngine

/-- Heap version of the root move-loop of `find_best_move`; also updates
`self.best_move_this_iteration` exactly when the best move is replaced. -/
def root_moves_loop_s (env : Env) (ref : Nat) (color : Color)
    (current_depth : Nat) (timeUp : Nat → Bool) :
    List Move → Option Move × EScore → Nat → SState →
      (Option Move × EScore) × Nat × SState
  | [], acc, tick, s => (acc, tick, s)
  | move :: rest, acc, tick, s =>
      if timeUp tick then (acc, tick + 1, s)
      else
        let tick := tick + 1
        let a := allocB s (readB s ref)
        let s2 := _make_move_s env a.1 move a.2
        let r := minimax_s env (current_depth - 1) a.1
          .ninf .pinf ((readB s2 a.1).current_turn = .white) s2
        let upd : Bool :=
          if color = .white then decide (acc.2 < r.1)
          else decide (r.1 < acc.2)
        let acc' := if upd then (some move, r.1) else acc
        let s4 :=
          if upd then { r.2 with best_move_this_iteration := some move }
          else r.2
        root_moves_loop_s env ref color current_depth timeUp rest acc' tick s4

/-- Heap version of the iterative-deepening loop of `find_best_move`. -/
def iterative_deepening_s (env : Env) (ref : Nat) (color : Color)
    (timeUp : Nat → Bool) (moves : List Move) :
    Nat → Nat → Option Move × EScore → Nat → SState →
      (Option Move × EScore) × Nat × SState
  | _, 0, acc, tick, s => (acc, tick, s)
  | current_depth, fuel + 1, acc, tick, s =>
      if timeUp tick then (acc, tick + 1, s)
      else
        let r :=
          root_moves_loop_s env ref color current_depth timeUp moves acc
            (tick + 1) s
        iterative_deepening_s env ref color timeUp moves (current_depth + 1)
          fuel r.1 r.2.1 r.2.2

/-- `SearchEngine.find_best_move(board, depth, max_time)` under reference
semantics: reset `nodes_searched`, enumerate and order the root moves once,
return `None` when there are none, otherwise run iterative deepening from
depth 1 to `depth` over the same ordered list. -/
def find_best_move_s (env : Env) (ref : Nat) (depth : Nat)
    (timeUp : Nat → Bool) (s : SState) : Option Move × SState :=
  let board := readB s ref
  let s := { s with nodes_searched := 0 }
  let color := board.current_turn
  let p := _get_all_legal_moves_s env board color s
  if p.1 = [] then (none, p.2)
  else
    let ordered := _order_moves env board p.1
    let best_score := if color = .white then EScore.ninf else EScore.pinf
    let r := iterative_deepening_s env ref color timeUp ordered 1 depth
      (none, best_score) 0 p.2
    (r.1.1, r.2.2)

/-- Modelled from the spec: the spec's phrasing of iterative deepening,
"for `currentDepth` from 1 to `maxDepth`: re-enumerate and re-order root
moves" — the root-move list is recomputed inside the depth loop, before
each depth's move loop, instead of once before the first depth.
Used only to compare enumeration behaviour against `find_best_move_s`. -/
def iterative_deepening_reenum_s (env : Env) (ref : Nat) (color : Color)
    (timeUp : Nat → Bool) :
    Nat → Nat → Option Move × EScore → Nat → SState →
      (Option Move × EScore) × Nat × SState
  | _, 0, acc, tick, s => (acc, tick, s)
  | current_depth, fuel + 1, acc, tick, s =>
      if timeUp tick then (acc, tick + 1, s)
      else
        let p := _get_all_legal_moves_s env (readB s ref) color s
        let ordered := _order_moves env (readB p.2 ref) p.1
        let r :=
          root_moves_loop_s env ref color current_depth timeUp ordered acc
            (tick + 1) p.2
        iterative_deepening_reenum_s env ref color timeUp (current_depth + 1)
          fuel r.1 r.2.1 r.2.2

/-- Modelled from the spec: `find_best_move` as the spec words it, with
root moves re-enumerated and re-ordered before every depth's move loop
(no once-only enumeration before the loop). -/
def find_best_move_reenum_s (env : Env) (ref : Nat) (depth : Nat)
    (timeUp : Nat → Bool) (s : SState) : Option Move × SState :=
  let board := readB s ref
  let s := { s with nodes_searched := 0 }
  let color := board.current_turn
  let best_score := if color = .white then EScore.ninf else EScore.pinf
  let r := iterative_deepening_reenum_s env ref color timeUp 1 depth
    (none, best_score) 0 s
  (r.1.1, r.2.2)

end SearchEngine

/-! ## Heap lemmas and frame (rollback-fidelity) theorems -/

/-- `s'` extends `s`: every board object of `s` is still present, at the
same reference, with unchanged contents. -/
def HeapExtends (s s' : SState) : Prop :=
  s.heap.length ≤ s'.heap.length ∧
  ∀ i, i < s.heap.length → s'.heap[i]? = s.heap[i]?

theorem HeapExtends.refl (s : SState) : HeapExtends s s :=
  ⟨le_rfl, fun _ _ => rfl⟩

theorem HeapExtends.of_eq {s s' : SState} (h : s'.heap = s.heap) :
    HeapExtends s s' :=
  ⟨(congrArg List.length h).ge, fun _ _ => by rw [h]⟩

theorem HeapExtends.trans {s1 s2 s3 : SState} (h12 : HeapExtends s1 s2)
    (h23 : HeapExtends s2 s3) : HeapExtends s1 s3 :=
  ⟨le_trans h12.1 h23.1, fun i hi =>
    (h23.2 i (lt_of_lt_of_le hi h12.1)).trans (h12.2 i hi)⟩

theorem readB_of_extends {s s' : SState} (h : HeapExtends s s') {i : Nat}
    (hi : i < s.heap.length) : readB s' i = readB s i := by
  simp only [readB]
  rw [h.2 i hi]

theorem allocB_extends (s : SState) (b : Board) :
    HeapExtends s (allocB s b).2 := by
  refine ⟨?_, fun i hi => ?_⟩
  · simp [allocB]
  · simpa [allocB] using List.getElem?_append_left hi

theorem readB_allocB_fresh (s : SState) (b : Board) :
    readB (allocB s b).2 (allocB s b).1 = b := by
  simp [allocB, readB, List.getElem?_concat_length]

theorem allocB_fst (s : SState) (b : Board) : (allocB s b).1 = s.heap.length :=
  rfl

theorem allocB_length (s : SState) (b : Board) :
    (allocB s b).2.heap.length = s.heap.length + 1 := by
  simp [allocB]

theorem readB_writeB_self {s : SState} {ref : Nat} (b : Board)
    (h : ref < s.heap.length) : readB (writeB s ref b) ref = b := by
  simp [writeB, readB, List.getElem?_set_eq_of_lt, h]

theorem readB_writeB_ne {s : SState} {ref i : Nat} (b : Board)
    (h : i ≠ ref) : readB (writeB s ref b) i = readB s i := by
  simp [writeB, readB, List.getElem?_set_ne (h := Ne.symm h)]

theorem writeB_length (s : SState) (ref : Nat) (b : Board) :
    (writeB s ref b).heap.length = s.heap.length := by
  simp [writeB]

/-- Allocating a copy and then mutating the fresh object leaves every old
object unchanged. -/
theorem alloc_write_extends (s : SState) (b b' : Board) :
    HeapExtends s (writeB (allocB s b).2 (allocB s b).1 b') := by
  refine ⟨?_, fun i hi => ?_⟩
  · simp [allocB, writeB]
  · have hne : s.heap.length ≠ i := by omega
    simp only [writeB, allocB, List.getElem?_set_ne (h := hne)]
    exact List.getElem?_append_left hi

namespace SearchEngine

theorem _make_move_s_alloc_extends (env : Env) (s : SState) (b : Board)
    (move : Move) :
    HeapExtends s (_make_move_s env (allocB s b).1 move (allocB s b).2) :=
  alloc_write_extends s b _

theorem _make_move_s_alloc_length (env : Env) (s : SState) (b : Board)
    (move : Move) :
    (_make_move_s env (allocB s b).1 move (allocB s b).2).heap.length =
      s.heap.length + 1 := by
  simp [_make_move_s, writeB_length, allocB_length]

/-- The move loops of `_minimax` never change an existing board object:
copies are fresh, mutation hits only the fresh copy, and recursion
preserves by hypothesis. -/
theorem ab_loop_max_s_extends (env : Env) (ref : Nat)
    (child : Nat → EScore → EScore → SState → EScore × SState)
    (hchild : ∀ r a c st, HeapExtends st (child r a c st).2) :
    ∀ (ms : List Move) (best alpha beta : EScore) (s : SState),
      HeapExtends s (ab_loop_max_s env ref child ms best alpha beta s).2 := by
  intro ms
  induction ms with
  | nil => intro best alpha beta s; exact HeapExtends.refl s
  | cons move rest ih =>
      intro best alpha beta s
      rw [ab_loop_max_s]
      have h2 := _make_move_s_alloc_extends env s (readB s ref) move
      have h3 := hchild (allocB s (readB s ref)).1 alpha beta
        (_make_move_s env (allocB s (readB s ref)).1 move
          (allocB s (readB s ref)).2)
      split
      · exact h2.trans h3
      · exact ((h2.trans h3).trans (ih _ _ _ _))

theorem ab_loop_min_s_extends (env : Env) (ref : Nat)
    (child : Nat → EScore → EScore → SState → EScore × SState)
    (hchild : ∀ r a c st, HeapExtends st (child r a c st).2) :
    ∀ (ms : List Move) (best alpha beta : EScore) (s : SState),
      HeapExtends s (ab_loop_min_s env ref child ms best alpha beta s).2 := by
  intro ms
  induction ms with
  | nil => intro best alpha beta s; exact HeapExtends.refl s
  | cons move rest ih =>
      intro best alpha beta s
      rw [ab_loop_min_s]
      have h2 := _make_move_s_alloc_extends env s (readB s ref) move
      have h3 := hchild (allocB s (readB s ref)).1 alpha beta
        (_make_move_s env (allocB s (readB s ref)).1 move
          (allocB s (readB s ref)).2)
      split
      · exact h2.trans h3
      · exact ((h2.trans h3).trans (ih _ _ _ _))

/-- `_minimax` never changes an existing board object (it only allocates
copies and mutates those). -/
theorem minimax_s_extends (env : Env) :
    ∀ (d : Nat) (ref : Nat) (alpha beta : EScore) (mx : Bool) (s : SState),
      HeapExtends s (minimax_s env d ref alpha beta mx s).2 := by
  intro d
  induction d with
  | zero =>
      intro ref alpha beta mx s
      exact HeapExtends.of_eq rfl
  | succ d ih =>
      intro ref alpha beta mx s
      rw [minimax_s]
      split
      · exact HeapExtends.of_eq rfl
      · exact HeapExtends.of_eq rfl
      · exact HeapExtends.of_eq rfl
      · split
        · dsimp only
          split
          · exact HeapExtends.of_eq rfl
          · refine HeapExtends.trans ?_
              (ab_loop_max_s_extends env ref _
                (fun r a c st => ih r a c false st) _ _ _ _ _)
            exact HeapExtends.of_eq rfl
        · dsimp only
          split
          · exact HeapExtends.of_eq rfl
          · refine HeapExtends.trans ?_
              (ab_loop_min_s_extends env ref _
                (fun r a c st => ih r a c true st) _ _ _ _ _)
            exact HeapExtends.of_eq rfl

end SearchEngine

namespace SearchEngine

/-- Updating `best_move_this_iteration` (conditionally) never touches the
heap. -/
theorem extends_set_best_move (st : SState) (u : Bool) (m : Move) :
    HeapExtends st
      (if u then { st with best_move_this_iteration := some m } else st) := by
  split
  · exact HeapExtends.of_eq rfl
  · exact HeapExtends.refl st

/-- The root move-loop of `find_best_move` never changes an existing board
object. -/
theorem root_moves_loop_s_extends (env : Env) (ref : Nat) (color : Color)
    (cd : Nat) (timeUp : Nat → Bool) :
    ∀ (ms : List Move) (acc : Option Move × EScore) (tick : Nat) (s : SState),
      HeapExtends s
        (root_moves_loop_s env ref color cd timeUp ms acc tick s).2.2 := by
  intro ms
  induction ms with
  | nil => intro acc tick s; exact HeapExtends.refl s
  | cons move rest ih =>
      intro acc tick s
      rw [root_moves_loop_s]
      split
      · exact HeapExtends.refl s
      · dsimp only
        refine HeapExtends.trans
          (HeapExtends.trans
            ((_make_move_s_alloc_extends env s (readB s ref) move).trans
              (minimax_s_extends env _ _ _ _ _ _))
            (extends_set_best_move _ _ move)) (ih _ _ _)

/-- The iterative-deepening loop of `find_best_move` never changes an
existing board object. -/
theorem iterative_deepening_s_extends (env : Env) (ref : Nat) (color : Color)
    (timeUp : Nat → Bool) (moves : List Move) :
    ∀ (cd fuel : Nat) (acc : Option Move × EScore) (tick : Nat) (s : SState),
      HeapExtends s
        (iterative_deepening_s env ref color timeUp moves cd fuel acc tick
          s).2.2 := by
  intro cd fuel
  induction fuel generalizing cd with
  | zero => intro acc tick s; exact HeapExtends.refl s
  | succ fuel ih =>
      intro acc tick s
      rw [iterative_deepening_s]
      split
      · exact HeapExtends.refl s
      · exact (root_moves_loop_s_extends env ref color cd timeUp moves acc
          (tick + 1) s).trans (ih _ _ _ _)

/-- `find_best_move` never changes an existing board object. -/
theorem find_best_move_s_extends (env : Env) (ref : Nat) (depth : Nat)
    (timeUp : Nat → Bool) (s : SState) :
    HeapExtends s (find_best_move_s env ref depth timeUp s).2 := by
  rw [find_best_move_s]
  dsimp only
  split
  · exact HeapExtends.of_eq rfl
  · refine HeapExtends.trans ?_
      (iterative_deepening_s_extends env ref _ timeUp _ 1 depth _ 0 _)
    exact HeapExtends.of_eq rfl

end SearchEngine

namespace SearchEngine

theorem readB_make_move_alloc_self (env : Env) (s : SState) (b : Board)
    (move : Move) :
    readB (_make_move_s env (allocB s b).1 move (allocB s b).2)
      (allocB s b).1 = _make_move_with_auto_promotion env b move.1 move.2 := by
  rw [_make_move_s, readB_allocB_fresh]
  exact readB_writeB_self _ (by rw [allocB_fst, allocB_length]; omega)

/-- Score simulation for the maximizing loop: the heap loop computes the
same score as the value-semantics loop on the parent board's current
value. -/
theorem ab_loop_max_s_sim (env : Env) (ref : Nat)
    (child_s : Nat → EScore → EScore → SState → EScore × SState)
    (childP : Board → EScore → EScore → EScore)
    (hsim : ∀ r a c st, r < st.heap.length →
      (child_s r a c st).1 = childP (readB st r) a c)
    (hext : ∀ r a c st, HeapExtends st (child_s r a c st).2) :
    ∀ (ms : List Move) (best alpha beta : EScore) (s : SState),
      ref < s.heap.length →
      (ab_loop_max_s env ref child_s ms best alpha beta s).1 =
        ab_loop_max env (readB s ref) childP ms best alpha beta := by
  intro ms
  induction ms with
  | nil => intro best alpha beta s _; rfl
  | cons move rest ih =>
      intro best alpha beta s href
      rw [ab_loop_max_s, ab_loop_max]
      have ha1lt : (allocB s (readB s ref)).1 <
          (_make_move_s env (allocB s (readB s ref)).1 move
            (allocB s (readB s ref)).2).heap.length := by
        rw [_make_move_s_alloc_length, allocB_fst]
        omega
      have hR := hsim (allocB s (readB s ref)).1 alpha beta
        (_make_move_s env (allocB s (readB s ref)).1 move
          (allocB s (readB s ref)).2) ha1lt
      rw [readB_make_move_alloc_self] at hR
      have hreflt : ref <
          (_make_move_s env (allocB s (readB s ref)).1 move
            (allocB s (readB s ref)).2).heap.length := by
        rw [_make_move_s_alloc_length]
        omega
      have hB : readB (child_s (allocB s (readB s ref)).1 alpha beta
          (_make_move_s env (allocB s (readB s ref)).1 move
            (allocB s (readB s ref)).2)).2 ref = readB s ref := by
        rw [readB_of_extends (hext _ _ _ _) hreflt]
        exact readB_of_extends (_make_move_s_alloc_extends env s _ move) href
      rw [hR]
      split
      · rfl
      · have hrlt : ref < (child_s (allocB s (readB s ref)).1 alpha beta
            (_make_move_s env (allocB s (readB s ref)).1 move
              (allocB s (readB s ref)).2)).2.heap.length :=
          lt_of_lt_of_le hreflt (hext _ _ _ _).1
        exact (ih _ _ _ _ hrlt).trans (by rw [hB])

/-- Score simulation for the minimizing loop. -/
theorem ab_loop_min_s_sim (env : Env) (ref : Nat)
    (child_s : Nat → EScore → EScore → SState → EScore × SState)
    (childP : Board → EScore → EScore → EScore)
    (hsim : ∀ r a c st, r < st.heap.length →
      (child_s r a c st).1 = childP (readB st r) a c)
    (hext : ∀ r a c st, HeapExtends st (child_s r a c st).2) :
    ∀ (ms : List Move) (best alpha beta : EScore) (s : SState),
      ref < s.heap.length →
      (ab_loop_min_s env ref child_s ms best alpha beta s).1 =
        ab_loop_min env (readB s ref) childP ms best alpha beta := by
  intro ms
  induction ms with
  | nil => intro best alpha beta s _; rfl
  | cons move rest ih =>
      intro best alpha beta s href
      rw [ab_loop_min_s, ab_loop_min]
      have ha1lt : (allocB s (readB s ref)).1 <
          (_make_move_s env (allocB s (readB s ref)).1 move
            (allocB s (readB s ref)).2).heap.length := by
        rw [_make_move_s_alloc_length, allocB_fst]
        omega
      have hR := hsim (allocB s (readB s ref)).1 alpha beta
        (_make_move_s env (allocB s (readB s ref)).1 move
          (allocB s (readB s ref)).2) ha1lt
      rw [readB_make_move_alloc_self] at hR
      have hreflt : ref <
          (_make_move_s env (allocB s (readB s ref)).1 move
            (allocB s (readB s ref)).2).heap.length := by
        rw [_make_move_s_alloc_length]
        omega
      have hB : readB (child_s (allocB s (readB s ref)).1 alpha beta
          (_make_move_s env (allocB s (readB s ref)).1 move
            (allocB s (readB s ref)).2)).2 ref = readB s ref := by
        rw [readB_of_extends (hext _ _ _ _) hreflt]
        exact readB_of_extends (_make_move_s_alloc_extends env s _ move) href
      rw [hR]
      split
      · rfl
      · have hrlt : ref < (child_s (allocB s (readB s ref)).1 alpha beta
            (_make_move_s env (allocB s (readB s ref)).1 move
              (allocB s (readB s ref)).2)).2.heap.length :=
          lt_of_lt_of_le hreflt (hext _ _ _ _).1
        exact (ih _ _ _ _ hrlt).trans (by rw [hB])

/-- Score simulation for `_minimax`: the heap version returns the score of
the value-semantics version on the board object's current value. -/
theorem minimax_s_sim (env : Env) :
    ∀ (d : Nat) (ref : Nat) (alpha beta : EScore) (mx : Bool) (s : SState),
      ref < s.heap.length →
      (minimax_s env d ref alpha beta mx s).1 =
        _minimax env d (readB s ref) alpha beta mx := by
  intro d
  induction d with
  | zero => intro ref alpha beta mx s _; rfl
  | succ d ih =>
      intro ref alpha beta mx s href
      rw [minimax_s, _minimax]
      dsimp only
      cases hst : env.game_status (readB s ref) with
      | checkmate => rfl
      | stalemate => rfl
      | draw => rfl
      | ongoing =>
          dsimp only [_get_all_legal_moves_s]
          split
          · split
            · rfl
            · exact ab_loop_max_s_sim env ref _
                (fun b a c => _minimax env d b a c false)
                (fun r a c st hr => ih r a c false st hr)
                (fun r a c st => minimax_s_extends env d r a c false st)
                _ _ _ _ _ href
          · split
            · rfl
            · exact ab_loop_min_s_sim env ref _
                (fun b a c => _minimax env d b a c true)
                (fun r a c st hr => ih r a c true st hr)
                (fun r a c st => minimax_s_extends env d r a c true st)
                _ _ _ _ _ href

end SearchEngine

namespace SearchEngine

/-- Simulation of the root move-loop: same best-move/score pair and same
tick consumption as the value-semantics loop on the root board's current
value. -/
theorem root_moves_loop_s_sim (env : Env) (ref : Nat) (color : Color)
    (cd : Nat) (timeUp : Nat → Bool) :
    ∀ (ms : List Move) (acc : Option Move × EScore) (tick : Nat) (s : SState),
      ref < s.heap.length →
      (root_moves_loop_s env ref color cd timeUp ms acc tick s).1 =
        (root_moves_loop env (readB s ref) color cd timeUp ms acc tick).1 ∧
      (root_moves_loop_s env ref color cd timeUp ms acc tick s).2.1 =
        (root_moves_loop env (readB s ref) color cd timeUp ms acc tick).2 := by
  intro ms
  induction ms with
  | nil => intro acc tick s _; exact ⟨rfl, rfl⟩
  | cons move rest ih =>
      intro acc tick s href
      rw [root_moves_loop_s, root_moves_loop]
      split
      · exact ⟨rfl, rfl⟩
      · dsimp only
        have ha1lt : (allocB s (readB s ref)).1 <
            (_make_move_s env (allocB s (readB s ref)).1 move
              (allocB s (readB s ref)).2).heap.length := by
          rw [_make_move_s_alloc_length, allocB_fst]
          omega
        rw [readB_make_move_alloc_self]
        rw [minimax_s_sim env (cd - 1) (allocB s (readB s ref)).1
          EScore.ninf EScore.pinf _ _ ha1lt]
        rw [readB_make_move_alloc_self]
        have hext : HeapExtends s
            ((minimax_s env (cd - 1) (allocB s (readB s ref)).1
              EScore.ninf EScore.pinf
              (decide ((_make_move_with_auto_promotion env (readB s ref)
                move.1 move.2).current_turn = Color.white))
              (_make_move_s env (allocB s (readB s ref)).1 move
                (allocB s (readB s ref)).2)).2) :=
          (_make_move_s_alloc_extends env s _ move).trans
            (minimax_s_extends env _ _ _ _ _ _)
        refine ⟨(ih _ _ _ ?_).1.trans ?_, (ih _ _ _ ?_).2.trans ?_⟩
        · exact lt_of_lt_of_le href
            ((hext.trans (extends_set_best_move _ _ move)).1)
        · rw [readB_of_extends
            (hext.trans (extends_set_best_move _ _ move)) href]
        · exact lt_of_lt_of_le href
            ((hext.trans (extends_set_best_move _ _ move)).1)
        · rw [readB_of_extends
            (hext.trans (extends_set_best_move _ _ move)) href]

end SearchEngine

namespace SearchEngine

/-- Simulation of the iterative-deepening loop. -/
theorem iterative_deepening_s_sim (env : Env) (ref : Nat) (color : Color)
    (timeUp : Nat → Bool) (moves : List Move) :
    ∀ (cd fuel : Nat) (acc : Option Move × EScore) (tick : Nat) (s : SState),
      ref < s.heap.length →
      (iterative_deepening_s env ref color timeUp moves cd fuel acc tick
        s).1 =
        (iterative_deepening env (readB s ref) color timeUp moves cd fuel acc
          tick).1 ∧
      (iterative_deepening_s env ref color timeUp moves cd fuel acc tick
        s).2.1 =
        (iterative_deepening env (readB s ref) color timeUp moves cd fuel acc
          tick).2 := by
  intro cd fuel
  induction fuel generalizing cd with
  | zero => intro acc tick s _; exact ⟨rfl, rfl⟩
  | succ fuel ih =>
      intro acc tick s href
      rw [iterative_deepening_s, iterative_deepening]
      split
      · exact ⟨rfl, rfl⟩
      · dsimp only
        have hroot := root_moves_loop_s_sim env ref color cd timeUp moves acc
          (tick + 1) s href
        have hext := root_moves_loop_s_extends env ref color cd timeUp moves
          acc (tick + 1) s
        rw [hroot.1, hroot.2]
        refine ⟨(ih _ _ _ _ (lt_of_lt_of_le href hext.1)).1.trans ?_,
          (ih _ _ _ _ (lt_of_lt_of_le href hext.1)).2.trans ?_⟩
        · rw [readB_of_extends hext href]
        · rw [readB_of_extends hext href]

/-- Simulation of `find_best_move`: the heap version returns the move the
value-semantics version returns on the caller board's current value. -/
theorem find_best_move_s_sim (env : Env) (ref : Nat) (depth : Nat)
    (timeUp : Nat → Bool) (s : SState) (href : ref < s.heap.length) :
    (find_best_move_s env ref depth timeUp s).1 =
      (find_best_move env (readB s ref) depth timeUp).1 := by
  rw [find_best_move_s, find_best_move]
  dsimp only [_get_all_legal_moves_s]
  split
  · rfl
  · have h := (iterative_deepening_s_sim env ref
      ((readB s ref).current_turn) timeUp
      (_order_moves env (readB s ref)
        (_get_all_legal_moves env (readB s ref) (readB s ref).current_turn))
      1 depth
      (none,
        if (readB s ref).current_turn = Color.white then EScore.ninf
        else EScore.pinf)
      0 { s with nodes_searched := 0, enum_calls := s.enum_calls + 1 }
      href).1
    exact congrArg Prod.fst h

end SearchEngine

/-! ## Alpha-beta pruning correctness -/

namespace EScore

@[simp] theorem max_ninf_left (a : EScore) : max ninf a = a :=
  max_eq_right (ninf_le a)

@[simp] theorem min_pinf_left (a : EScore) : min pinf a = a :=
  min_eq_right (le_pinf a)

theorem max_ne_pinf {a b : EScore} (ha : a ≠ pinf) (hb : b ≠ pinf) :
    max a b ≠ pinf := by
  rcases max_choice a b with h | h <;> rw [h] <;> assumption

theorem min_ne_ninf {a b : EScore} (ha : a ≠ ninf) (hb : b ≠ ninf) :
    min a b ≠ ninf := by
  rcases min_choice a b with h | h <;> rw [h] <;> assumption

theorem IsFin.exists_fin {a : EScore} (h : IsFin a) : ∃ q, a = fin q := by
  cases a with
  | ninf => exact absurd h not_isFin_ninf
  | fin q => exact ⟨q, rfl⟩
  | pinf => exact absurd h not_isFin_pinf

end EScore

namespace SearchEngine

/-- Fail-soft alpha-beta contract: the returned score `g` is an upper bound
on the true value `v` when it fails low, a lower bound when it fails high,
and exact when it lands strictly inside the window. -/
def ABCorrect (g v alpha beta : EScore) : Prop :=
  (g ≤ alpha → v ≤ g) ∧ (beta ≤ g → g ≤ v) ∧
  (alpha < g → g < beta → g = v)

theorem ABCorrect_self (c alpha beta : EScore) : ABCorrect c c alpha beta :=
  ⟨fun _ => le_rfl, fun _ => le_rfl, fun _ _ => rfl⟩

/-- Exhaustive maximum of the child values of a move list. -/
def childrenMax (env : Env) (board : Board) (val : Board → EScore) :
    List Move → EScore
  | [] => .ninf
  | move :: rest =>
      max (val (_make_move_with_auto_promotion env board move.1 move.2))
        (childrenMax env board val rest)

/-- Exhaustive minimum of the child values of a move list. -/
def childrenMin (env : Env) (board : Board) (val : Board → EScore) :
    List Move → EScore
  | [] => .pinf
  | move :: rest =>
      min (val (_make_move_with_auto_promotion env board move.1 move.2))
        (childrenMin env board val rest)

theorem full_loop_max_eq (env : Env) (board : Board) (val : Board → EScore) :
    ∀ (ms : List Move) (best : EScore),
      full_loop_max env board val ms best =
        max best (childrenMax env board val ms) := by
  intro ms
  induction ms with
  | nil => intro best; rw [full_loop_max, childrenMax]; exact (max_eq_left (EScore.ninf_le best)).symm
  | cons move rest ih =>
      intro best
      rw [full_loop_max, childrenMax, ih, max_assoc]

theorem full_loop_min_eq (env : Env) (board : Board) (val : Board → EScore) :
    ∀ (ms : List Move) (best : EScore),
      full_loop_min env board val ms best =
        min best (childrenMin env board val ms) := by
  intro ms
  induction ms with
  | nil => intro best; rw [full_loop_min, childrenMin]; exact (min_eq_left (EScore.le_pinf best)).symm
  | cons move rest ih =>
      intro best
      rw [full_loop_min, childrenMin, ih, min_assoc]

/-- If `x ≤ a < max x y` then the maximum is attained by `y`. -/
theorem max_resolve {α : Type} [LinearOrder α] {x y a : α} (hx : x ≤ a)
    (h : a < max x y) : max x y = y := by
  rcases max_choice x y with hc | hc
  · exact absurd (lt_of_lt_of_le h (le_of_eq hc)) (not_lt_of_le hx)
  · exact hc

/-- If `max x y < a ≤ ...` dual: `a ≤ min x y` fails when `a` exceeds... :
if `a ≤ x` and `min x y < a` then the minimum is attained by `y`. -/
theorem min_resolve {α : Type} [LinearOrder α] {x y a : α} (hx : a ≤ x)
    (h : min x y < a) : min x y = y := by
  rcases min_choice x y with hc | hc
  · exact absurd (lt_of_le_of_lt hx (lt_of_le_of_lt (le_of_eq hc.symm) h)) (lt_irrefl _)
  · exact hc

/-- Fail-soft correctness of the maximizing alpha-beta loop with respect to
the exhaustive maximum of the same children. -/
theorem ab_loop_max_correct (env : Env) (board : Board)
    (child : Board → EScore → EScore → EScore) (val : Board → EScore)
    (beta : EScore)
    (hchild : ∀ b a, a < beta → ABCorrect (child b a beta) (val b) a beta) :
    ∀ (ms : List Move) (best alpha : EScore), best ≤ alpha → alpha < beta →
      ABCorrect (ab_loop_max env board child ms best alpha beta)
        (max best (childrenMax env board val ms)) alpha beta := by
  intro ms
  induction ms with
  | nil =>
      intro best alpha _ _
      rw [ab_loop_max, childrenMax]
      rw [max_eq_left (EScore.ninf_le best)]
      exact ABCorrect_self best alpha beta
  | cons move rest ih =>
      intro best alpha hba hab
      rw [ab_loop_max, childrenMax]
      set bm := _make_move_with_auto_promotion env board move.1 move.2
      set sc := child bm alpha beta with hsc
      have hC : ABCorrect sc (val bm) alpha beta := hchild bm alpha hab
      split
      · -- beta cutoff: beta ≤ max alpha sc, every later move is skipped
        rename_i hcut
        have hβs : beta ≤ sc := by
          rcases le_max_iff.mp hcut with h | h
          · exact absurd h (not_le_of_lt hab)
          · exact h
        have hsv : sc ≤ val bm := hC.2.1 hβs
        rw [max_eq_right
          (le_trans hba (le_trans (le_of_lt hab) hβs))]
        refine ⟨fun h => ?_, fun _ => ?_, fun _ hlt => ?_⟩
        · exact absurd hab (not_lt_of_le (le_trans hβs h))
        · exact le_trans hsv (le_trans (le_max_left _ _) (le_max_right _ _))
        · exact absurd (lt_of_le_of_lt hβs hlt) (lt_irrefl _)
      · -- no cutoff: continue with raised alpha and raised running best
        rename_i hcut
        have hαβ' : max alpha sc < beta := not_le.mp hcut
        have hsβ : sc < beta := lt_of_le_of_lt (le_max_right alpha sc) hαβ'
        by_cases hsα : sc ≤ alpha
        · -- child failed low: sc only over-approximates val bm
          have hvs : val bm ≤ sc := hC.1 hsα
          rw [max_eq_left hsα]
          have hIH := ih (max best sc) alpha (max_le hba hsα) hab
          set g := ab_loop_max env board child rest (max best sc) alpha beta
          set R := childrenMax env board val rest
          refine ⟨fun hgα => ?_, fun hβg => ?_, fun hαg hgβ => ?_⟩
          · refine le_trans (max_le ?_ (max_le ?_ ?_)) (hIH.1 hgα)
            · exact le_trans (le_max_left best sc) (le_max_left _ R)
            · exact le_trans (le_trans hvs (le_max_right best sc))
                (le_max_left _ R)
            · exact le_max_right _ R
          · have hgv' := hIH.2.1 hβg
            have hres : max (max best sc) R = R :=
              max_resolve (max_le hba hsα)
                (lt_of_lt_of_le hab (le_trans hβg hgv'))
            rw [hres] at hgv'
            exact le_trans hgv' (le_trans (le_max_right (val bm) R)
              (le_max_right best _))
          · have hgv' := hIH.2.2 hαg hgβ
            have hres : max (max best sc) R = R :=
              max_resolve (max_le hba hsα) (hgv' ▸ hαg)
            rw [hres] at hgv'
            rw [hgv']
            rw [max_eq_right (le_trans hvs
              (le_trans hsα (le_of_lt (hgv' ▸ hαg))))]
            exact (max_eq_right (le_trans hba (le_of_lt (hgv' ▸ hαg)))).symm
        · -- child landed in the window: sc is exactly val bm
          push_neg at hsα
          have hv : sc = val bm := hC.2.2 hsα hsβ
          rw [max_eq_right (le_of_lt hsα)]
          have hIH := ih (max best sc) sc
            (max_le (le_trans hba (le_of_lt hsα)) le_rfl) hsβ
          set g := ab_loop_max env board child rest (max best sc) sc beta
          set R := childrenMax env board val rest
          have hvv : max best (max (val bm) R) = max (max best sc) R := by
            rw [← hv, ← max_assoc]
          rw [hvv]
          refine ⟨fun hgα => ?_, fun hβg => ?_, fun hαg hgβ => ?_⟩
          · exact hIH.1 (le_trans hgα (le_of_lt hsα))
          · exact hIH.2.1 hβg
          · by_cases hgs : sc < g
            · exact hIH.2.2 hgs hgβ
            · push_neg at hgs
              refine le_antisymm ?_ (hIH.1 hgs)
              exact le_trans hgs (le_trans (le_max_right best sc)
                (le_max_left _ R))

/-- Fail-soft correctness of the minimizing alpha-beta loop with respect to
the exhaustive minimum of the same children. -/
theorem ab_loop_min_correct (env : Env) (board : Board)
    (child : Board → EScore → EScore → EScore) (val : Board → EScore)
    (alpha : EScore)
    (hchild : ∀ b c, alpha < c → ABCorrect (child b alpha c) (val b) alpha c) :
    ∀ (ms : List Move) (best beta : EScore), beta ≤ best → alpha < beta →
      ABCorrect (ab_loop_min env board child ms best alpha beta)
        (min best (childrenMin env board val ms)) alpha beta := by
  intro ms
  induction ms with
  | nil =>
      intro best beta _ _
      rw [ab_loop_min, childrenMin]
      rw [min_eq_left (EScore.le_pinf best)]
      exact ABCorrect_self best alpha beta
  | cons move rest ih =>
      intro best beta hbb hab
      rw [ab_loop_min, childrenMin]
      set bm := _make_move_with_auto_promotion env board move.1 move.2
      set sc := child bm alpha beta with hsc
      have hC : ABCorrect sc (val bm) alpha beta := hchild bm beta hab
      split
      · -- alpha cutoff: min beta sc ≤ alpha, every later move is skipped
        rename_i hcut
        have hsα : sc ≤ alpha := by
          rcases min_le_iff.mp hcut with h | h
          · exact absurd (lt_of_lt_of_le hab h) (lt_irrefl _)
          · exact h
        have hsv : val bm ≤ sc := hC.1 hsα
        rw [min_eq_right
          (le_trans hsα (le_trans (le_of_lt hab) hbb))]
        refine ⟨fun _ => ?_, fun h => ?_, fun hlt _ => ?_⟩
        · exact le_trans (le_trans (min_le_right best _)
            (min_le_left (val bm) _)) hsv
        · exact absurd hab (not_lt_of_le (le_trans h hsα))
        · exact absurd (lt_of_lt_of_le hlt hsα) (lt_irrefl _)
      · -- no cutoff: continue with lowered beta and lowered running best
        rename_i hcut
        have hαβ' : alpha < min beta sc := not_le.mp hcut
        have hαs : alpha < sc := lt_of_lt_of_le hαβ' (min_le_right beta sc)
        by_cases hsβ : beta ≤ sc
        · -- child failed high: sc only under-approximates val bm
          have hvs : sc ≤ val bm := hC.2.1 hsβ
          rw [min_eq_left hsβ]
          have hIH := ih (min best sc) beta (le_min hbb hsβ) hab
          set g := ab_loop_min env board child rest (min best sc) alpha beta
          set R := childrenMin env board val rest
          refine ⟨fun hgα => ?_, fun hβg => ?_, fun hαg hgβ => ?_⟩
          · have hgv' := hIH.1 hgα
            have hres : min (min best sc) R = R :=
              min_resolve (le_min hbb hsβ)
                (lt_of_le_of_lt (le_trans hgv' hgα) hab)
            rw [hres] at hgv'
            exact le_trans (le_trans (min_le_right best _)
              (min_le_right (val bm) R)) hgv'
          · have hgv' := hIH.2.1 hβg
            refine le_trans hgv' (le_min ?_ (le_min ?_ ?_))
            · exact le_trans (min_le_left _ R) (min_le_left best sc)
            · exact le_trans (le_trans (min_le_left _ R)
                (min_le_right best sc)) hvs
            · exact min_le_right _ R
          · have hgv' := hIH.2.2 hαg hgβ
            have hres : min (min best sc) R = R :=
              min_resolve (le_min hbb hsβ) (hgv' ▸ hgβ)
            rw [hres] at hgv'
            rw [hgv']
            rw [min_eq_right (le_trans (le_of_lt (hgv' ▸ hgβ))
              (le_trans hsβ hvs))]
            exact (min_eq_right (le_trans (le_of_lt (hgv' ▸ hgβ)) hbb)).symm
        · -- child landed in the window: sc is exactly val bm
          push_neg at hsβ
          have hv : sc = val bm := hC.2.2 hαs hsβ
          rw [min_eq_right (le_of_lt hsβ)]
          have hIH := ih (min best sc) sc
            (le_min (le_trans (le_of_lt hsβ) hbb) le_rfl) hαs
          set g := ab_loop_min env board child rest (min best sc) alpha sc
          set R := childrenMin env board val rest
          have hvv : min best (min (val bm) R) = min (min best sc) R := by
            rw [← hv, ← min_assoc]
          rw [hvv]
          refine ⟨fun hgα => ?_, fun hβg => ?_, fun hαg hgβ => ?_⟩
          · exact hIH.1 hgα
          · exact hIH.2.1 (le_trans (le_of_lt hsβ) hβg)
          · by_cases hgs : g < sc
            · exact hIH.2.2 hαg hgs
            · push_neg at hgs
              refine le_antisymm (hIH.2.1 hgs) ?_
              exact le_trans (le_trans (min_le_left _ R)
                (min_le_right best sc)) hgs

end SearchEngine

namespace SearchEngine

theorem insertDesc_ne_nil (score : Move → Int) (m : Move) (l : List Move) :
    insertDesc score m l ≠ [] := by
  cases l with
  | nil => simp [insertDesc]
  | cons x xs =>
      rw [insertDesc]
      split <;> simp

theorem sortDesc_ne_nil (score : Move → Int) {l : List Move} (h : l ≠ []) :
    sortDesc score l ≠ [] := by
  cases l with
  | nil => exact absurd rfl h
  | cons x xs =>
      rw [sortDesc]
      exact insertDesc_ne_nil score x _

theorem ab_loop_max_fin (env : Env) (board : Board)
    (child : Board → EScore → EScore → EScore)
    (hchild : ∀ b a c, EScore.IsFin (child b a c)) :
    ∀ (ms : List Move) (best alpha beta : EScore), best ≠ .pinf →
      (ms = [] → EScore.IsFin best) →
      EScore.IsFin (ab_loop_max env board child ms best alpha beta) := by
  intro ms
  induction ms with
  | nil => intro best alpha beta _ h2; exact h2 rfl
  | cons move rest ih =>
      intro best alpha beta h1 _
      rw [ab_loop_max]
      split
      · exact EScore.IsFin.max (hchild _ _ _) h1
      · exact ih _ _ _
          (EScore.max_ne_pinf h1 (EScore.IsFin.ne_pinf (hchild _ _ _)))
          (fun _ => EScore.IsFin.max (hchild _ _ _) h1)

theorem ab_loop_min_fin (env : Env) (board : Board)
    (child : Board → EScore → EScore → EScore)
    (hchild : ∀ b a c, EScore.IsFin (child b a c)) :
    ∀ (ms : List Move) (best alpha beta : EScore), best ≠ .ninf →
      (ms = [] → EScore.IsFin best) →
      EScore.IsFin (ab_loop_min env board child ms best alpha beta) := by
  intro ms
  induction ms with
  | nil => intro best alpha beta _ h2; exact h2 rfl
  | cons move rest ih =>
      intro best alpha beta h1 _
      rw [ab_loop_min]
      split
      · exact EScore.IsFin.min (hchild _ _ _) h1
      · exact ih _ _ _
          (EScore.min_ne_ninf h1 (EScore.IsFin.ne_ninf (hchild _ _ _)))
          (fun _ => EScore.IsFin.min (hchild _ _ _) h1)

/-- `_minimax` always returns a finite score (never an infinity). -/
theorem minimax_isFin (env : Env) :
    ∀ (d : Nat) (b : Board) (alpha beta : EScore) (mx : Bool),
      EScore.IsFin (_minimax env d b alpha beta mx) := by
  intro d
  induction d with
  | zero => intro b alpha beta mx; rw [_minimax]; exact EScore.isFin_fin _
  | succ d ih =>
      intro b alpha beta mx
      rw [_minimax]
      split
      · dsimp only
        split <;> exact EScore.isFin_fin _
      · exact EScore.isFin_fin _
      · exact EScore.isFin_fin _
      · dsimp only
        split
        · split
          · exact EScore.isFin_fin _
          · rename_i hne
            exact ab_loop_max_fin env b _ (fun b' a c => ih b' a c false)
              _ _ _ _ (by simp)
              (fun hnil => absurd hnil (sortDesc_ne_nil _ hne))
        · split
          · exact EScore.isFin_fin _
          · rename_i hne
            exact ab_loop_min_fin env b _ (fun b' a c => ih b' a c true)
              _ _ _ _ (by simp)
              (fun hnil => absurd hnil (sortDesc_ne_nil _ hne))

/-- Fail-soft alpha-beta contract for `_minimax` against exhaustive
`minimax_full`, for any window. -/
theorem minimax_ab_correct (env : Env) :
    ∀ (d : Nat) (b : Board) (alpha beta : EScore) (mx : Bool),
      alpha < beta →
      ABCorrect (_minimax env d b alpha beta mx)
        (minimax_full env d b mx) alpha beta := by
  intro d
  induction d with
  | zero =>
      intro b alpha beta mx _
      rw [_minimax, minimax_full]
      exact ABCorrect_self _ _ _
  | succ d ih =>
      intro b alpha beta mx hab
      rw [_minimax, minimax_full]
      split
      · exact ABCorrect_self _ _ _
      · exact ABCorrect_self _ _ _
      · exact ABCorrect_self _ _ _
      · dsimp only
        split
        · split
          · exact ABCorrect_self _ _ _
          · rw [full_loop_max_eq]
            exact ab_loop_max_correct env b _
              (fun b' => minimax_full env d b' false) beta
              (fun b' a ha => ih b' a beta false ha)
              _ .ninf alpha (EScore.ninf_le alpha) hab
        · split
          · exact ABCorrect_self _ _ _
          · rw [full_loop_min_eq]
            exact ab_loop_min_correct env b _
              (fun b' => minimax_full env d b' true) alpha
              (fun b' c hc => ih b' alpha c true hc)
              _ .pinf beta (EScore.le_pinf beta) hab

/-- With the full window `(-inf, +inf)`, pruning is exact: `_minimax`
equals exhaustive `minimax_full`. -/
theorem minimax_ab_eq_full (env : Env) (d : Nat) (b : Board) (mx : Bool) :
    _minimax env d b .ninf .pinf mx = minimax_full env d b mx := by
  have h := minimax_ab_correct env d b .ninf .pinf mx EScore.ninf_lt_pinf
  obtain ⟨q, hq⟩ := (minimax_isFin env d b .ninf .pinf mx).exists_fin
  refine h.2.2 ?_ ?_ <;> rw [hq]
  · exact EScore.ninf_lt_fin q
  · exact EScore.fin_lt_pinf q

end SearchEngine

namespace SearchEngine

theorem root_moves_loop_full_eq (env : Env) (board : Board) (color : Color)
    (cd : Nat) (timeUp : Nat → Bool) :
    ∀ (ms : List Move) (acc : Option Move × EScore) (tick : Nat),
      root_moves_loop env board color cd timeUp ms acc tick =
        root_moves_loop_full env board color cd timeUp ms acc tick := by
  intro ms
  induction ms with
  | nil => intro acc tick; rfl
  | cons move rest ih =>
      intro acc tick
      rw [root_moves_loop, root_moves_loop_full]
      split
      · rfl
      · dsimp only
        rw [minimax_ab_eq_full]
        exact ih _ _

theorem iterative_deepening_full_eq (env : Env) (board : Board)
    (color : Color) (timeUp : Nat → Bool) (moves : List Move) :
    ∀ (cd fuel : Nat) (acc : Option Move × EScore) (tick : Nat),
      iterative_deepening env board color timeUp moves cd fuel acc tick =
        iterative_deepening_full env board color timeUp moves cd fuel acc
          tick := by
  intro cd fuel
  induction fuel generalizing cd with
  | zero => intro acc tick; rfl
  | succ fuel ih =>
      intro acc tick
      rw [iterative_deepening, iterative_deepening_full]
      split
      · rfl
      · dsimp only
        rw [root_moves_loop_full_eq]
        exact ih _ _ _

/-- Pruned and exhaustive `find_best_move` agree exactly: same move and
same score, for every time-budget oracle. -/
theorem find_best_move_full_eq (env : Env) (board : Board) (depth : Nat)
    (timeUp : Nat → Bool) :
    find_best_move env board depth timeUp =
      find_best_move_full env board depth timeUp := by
  rw [find_best_move, find_best_move_full]
  split
  · rfl
  · dsimp only
    rw [iterative_deepening_full_eq]

end SearchEngine

namespace SearchEngine

theorem insertDesc_perm (score : Move → Int) (m : Move) :
    ∀ l : List Move, List.Perm (insertDesc score m l) (m :: l) := by
  intro l
  induction l with
  | nil => exact List.Perm.refl _
  | cons x xs ih =>
      rw [insertDesc]
      split
      · exact (ih.cons x).trans (List.Perm.swap m x xs)
      · exact List.Perm.refl _

/-- `_order_moves` returns a permutation of its input: no move is ever
discarded or duplicated. -/
theorem sortDesc_perm (score : Move → Int) :
    ∀ l : List Move, List.Perm (sortDesc score l) l := by
  intro l
  induction l with
  | nil => exact List.Perm.refl _
  | cons m ms ih =>
      rw [sortDesc]
      exact (insertDesc_perm score m _).trans (ih.cons m)

theorem mem_insertDesc {score : Move → Int} {m a : Move} {l : List Move} :
    a ∈ insertDesc score m l ↔ a = m ∨ a ∈ l :=
  ((insertDesc_perm score m l).mem_iff).trans (List.mem_cons)

theorem insertDesc_pairwise (score : Move → Int) (m : Move) :
    ∀ l : List Move,
      List.Pairwise (fun a b => score b ≤ score a) l →
      List.Pairwise (fun a b => score b ≤ score a) (insertDesc score m l) := by
  intro l
  induction l with
  | nil => intro _; simp [insertDesc]
  | cons x xs ih =>
      intro hp
      rw [List.pairwise_cons] at hp
      rw [insertDesc]
      split
      · rename_i hlt
        rw [List.pairwise_cons]
        refine ⟨fun a ha => ?_, ih hp.2⟩
        rcases mem_insertDesc.mp ha with rfl | ha
        · exact le_of_lt hlt
        · exact hp.1 a ha
      · rename_i hge
        push_neg at hge
        rw [List.pairwise_cons]
        refine ⟨fun a ha => ?_, List.pairwise_cons.mpr hp⟩
        rcases List.mem_cons.mp ha with rfl | ha
        · exact hge
        · exact le_trans (hp.1 a ha) hge

/-- `_order_moves` output is sorted in non-increasing score order. -/
theorem sortDesc_pairwise (score : Move → Int) :
    ∀ l : List Move,
      List.Pairwise (fun a b => score b ≤ score a) (sortDesc score l) := by
  intro l
  induction l with
  | nil => simp [sortDesc]
  | cons m ms ih =>
      rw [sortDesc]
      exact insertDesc_pairwise score m _ ih

theorem insertDesc_filter (score : Move → Int) (k : Int) (m : Move) :
    ∀ l : List Move,
      (insertDesc score m l).filter (fun mv => decide (score mv = k)) =
        if score m = k then
          m :: l.filter (fun mv => decide (score mv = k))
        else l.filter (fun mv => decide (score mv = k)) := by
  intro l
  induction l with
  | nil =>
      by_cases hmk : score m = k <;> simp [insertDesc, hmk]
  | cons x xs ih =>
      rw [insertDesc]
      split
      · rename_i hlt
        by_cases hmk : score m = k
        · have hxk : ¬ score x = k := by
            intro h
            rw [h, ← hmk] at hlt
            exact absurd hlt (lt_irrefl _)
          simp [List.filter_cons, hxk, hmk, ih]
        · simp [List.filter_cons, hmk, ih]
      · by_cases hmk : score m = k <;> simp [List.filter_cons, hmk]

/-- Stability of `_order_moves`: for every score value, the moves attaining
it appear in the output in exactly their input order. -/
theorem sortDesc_filter (score : Move → Int) (k : Int) :
    ∀ l : List Move,
      (sortDesc score l).filter (fun mv => decide (score mv = k)) =
        l.filter (fun mv => decide (score mv = k)) := by
  intro l
  induction l with
  | nil => rfl
  | cons m ms ih =>
      rw [sortDesc, insertDesc_filter, List.filter_cons]
      split
      · rename_i hmk
        simp [hmk, ih]
      · rename_i hmk
        simp [hmk, ih]

end SearchEngine

/-! ## Evaluator properties -/

namespace ChessEngine

/-- Empty the tile at list position `i` (removing whatever piece stands
there), keeping the coordinate. -/
def clearTiles : List (Coord × Tile) → Nat → List (Coord × Tile)
  | [], _ => []
  | (c, _) :: ts, 0 => (c, none) :: ts
  | ct :: ts, n + 1 => ct :: clearTiles ts n

/-- Remove the piece at tile index `i` of the board. -/
def clearPieceAt (b : Board) (i : Nat) : Board :=
  { b with tiles := clearTiles b.tiles i }

/-- The summed phase weight of the whole tile list. -/
def phaseWeightSum (ts : List (Coord × Tile)) : Nat :=
  (ts.map fun ct => tilePhaseWeight ct.2).sum

theorem phaseWeightSum_clear_le :
    ∀ (ts : List (Coord × Tile)) (i : Nat),
      phaseWeightSum (clearTiles ts i) ≤ phaseWeightSum ts := by
  intro ts
  induction ts with
  | nil => intro i; cases i <;> exact le_rfl
  | cons ct rest ih =>
      intro i
      cases i with
      | zero =>
          obtain ⟨c, t⟩ := ct
          simp only [clearTiles, phaseWeightSum, List.map_cons, List.sum_cons,
            tilePhaseWeight]
          exact Nat.add_le_add_right (Nat.zero_le _) _
      | succ n =>
          simp only [clearTiles, phaseWeightSum, List.map_cons,
            List.sum_cons]
          exact Nat.add_le_add_left (ih n) _

theorem calculate_game_phase_eq (b : Board) :
    calculate_game_phase b = min 1 ((phaseWeightSum b.tiles : ℚ) / 24) :=
  rfl

theorem calculate_game_phase_nonneg (b : Board) :
    0 ≤ calculate_game_phase b := by
  rw [calculate_game_phase_eq]
  refine le_min (by norm_num) ?_
  positivity

theorem calculate_game_phase_le_one (b : Board) :
    calculate_game_phase b ≤ 1 :=
  min_le_left 1 _

/-- Removing any piece never increases the phase. -/
theorem calculate_game_phase_clear_le (b : Board) (i : Nat) :
    calculate_game_phase (clearPieceAt b i) ≤ calculate_game_phase b := by
  rw [calculate_game_phase_eq, calculate_game_phase_eq]
  refine min_le_min le_rfl ?_
  gcongr
  exact_mod_cast phaseWeightSum_clear_le b.tiles i

/-- Claim-side per-tile signed score: `(materialValue + pstBonus)` added for
white and subtracted for black, zero for empty tiles. -/
def tileSignedScore (phase : ℚ) (ct : Coord × Tile) : ℚ :=
  match ct.2 with
  | none => 0
  | some (color, piece_name) =>
      (if color = Color.white then 1 else -1) *
        ((PIECE_VALUES piece_name : ℚ) +
          get_pst_bonus piece_name ct.1.q ct.1.r color phase)

/-- Claim-side per-tile material contribution: `abs(materialValue)` for
every non-king piece, zero otherwise. -/
def tileMaterial (ct : Coord × Tile) : Int :=
  match ct.2 with
  | none => 0
  | some (_, piece_name) =>
      if piece_name ≠ PieceName.king then |PIECE_VALUES piece_name| else 0

theorem evaluateStep_foldl (phase : ℚ) :
    ∀ (ts : List (Coord × Tile)) (acc : ℚ × Int),
      ts.foldl (evaluateStep phase) acc =
        (acc.1 + (ts.map (tileSignedScore phase)).sum,
         acc.2 + (ts.map tileMaterial).sum) := by
  intro ts
  induction ts with
  | nil => intro acc; simp
  | cons ct rest ih =>
      intro acc
      rw [List.foldl_cons, ih, List.map_cons, List.sum_cons, List.map_cons,
        List.sum_cons]
      obtain ⟨c, t⟩ := ct
      match t with
      | none =>
          simp [evaluateStep, tileSignedScore, tileMaterial]
      | some (color, piece_name) =>
          cases color <;> refine Prod.ext ?_ ?_ <;>
            simp only [evaluateStep, tileSignedScore, tileMaterial,
              Int.abs_eq_natAbs] <;>
            simp <;>
            ring

/-- `evaluate` decomposed exactly as the specification words it. -/
theorem evaluate_eq (b : Board) :
    evaluate b =
      ((b.tiles.map (tileSignedScore (calculate_game_phase b))).sum +
        ((evaluate_pawn_structure b .white : ℚ) -
          (evaluate_pawn_structure b .black : ℚ)) +
        (if b.current_turn = Color.white then 10 else -10),
       (b.tiles.map tileMaterial).sum) := by
  rw [evaluate, evaluateStep_foldl]
  refine Prod.ext ?_ ?_
  · dsimp only
    split <;> ring
  · dsimp only
    simp

end ChessEngine

namespace ChessEngine

/-- Claim-side doubled-pawn penalty: `-15` if any other own pawn shares the
file (same `q`). -/
def doubledPenalty (pawn_positions : List Coord) (c : Coord) : Int :=
  if pawn_positions.any fun p => p.q = c.q ∧ p ≠ c then -15 else 0

/-- Claim-side isolated-pawn penalty: `-10` if no other own pawn stands on
file `q - 1` or `q + 1`. -/
def isolatedPenalty (pawn_positions : List Coord) (c : Coord) : Int :=
  if pawn_positions.any fun p =>
      (p.q = c.q - 1 ∨ p.q = c.q + 1) ∧ p ≠ c then 0
  else -10

/-- Advancement of a pawn at rank `r`: `5 - r` for white, `r + 5` for
black. -/
def advancement (color : Color) (r : Int) : Int :=
  if color = Color.white then 5 - r else r + 5

/-- Claim-side passed-pawn bonus: `20 + 5 * advancement` when the pawn is
passed. -/
def passedBonus (b : Board) (color : Color) (c : Coord) : Int :=
  if _is_passed_pawn b c.q c.r color then 20 + 5 * advancement color c.r
  else 0

/-- Claim-side per-pawn contribution: the three terms applied
independently. -/
def pawnContrib (b : Board) (color : Color) (pawn_positions : List Coord)
    (c : Coord) : Int :=
  doubledPenalty pawn_positions c + isolatedPenalty pawn_positions c +
    passedBonus b color c

theorem pawnStructureStep_eq (b : Board) (color : Color)
    (pawn_positions : List Coord) (score : Int) (c : Coord) :
    pawnStructureStep b color pawn_positions score c =
      score + pawnContrib b color pawn_positions c := by
  rw [pawnStructureStep, pawnContrib, doubledPenalty, isolatedPenalty,
    passedBonus, advancement]
  have hdouble : ((pawn_positions.filter fun p => p.q = c.q ∧ p ≠ c) ≠ []) ↔
      (pawn_positions.any fun p => p.q = c.q ∧ p ≠ c) = true := by
    rw [Ne, List.filter_eq_nil_iff, List.any_eq_true]
    push_neg
    constructor
    · rintro ⟨x, hx, hpx⟩
      exact ⟨x, hx, by simpa using hpx⟩
    · rintro ⟨x, hx, hpx⟩
      exact ⟨x, hx, by simpa using hpx⟩
  have hneigh : (pawn_positions.any fun p =>
      if p ≠ c then decide (p.q = c.q - 1 ∨ p.q = c.q + 1) else false) =
      (pawn_positions.any fun p =>
        (p.q = c.q - 1 ∨ p.q = c.q + 1) ∧ p ≠ c) := by
    refine congrArg pawn_positions.any (funext fun p => ?_)
    by_cases hpc : p = c <;> by_cases hq : p.q = c.q - 1 ∨ p.q = c.q + 1 <;>
      simp [hpc, hq]
  rw [hneigh]
  by_cases hd : (pawn_positions.any fun p => p.q = c.q ∧ p ≠ c) = true <;>
    by_cases hn : (pawn_positions.any fun p =>
      (p.q = c.q - 1 ∨ p.q = c.q + 1) ∧ p ≠ c) = true <;>
    by_cases hp : _is_passed_pawn b c.q c.r color = true <;>
    simp only [hdouble, hd, hn, hp, if_pos, if_neg, Bool.not_eq_true,
      Bool.not_true, if_true, if_false] <;>
    simp [hd, hn, hp] <;>
    ring_nf

/-- `evaluate_pawn_structure` is the sum of the independent per-pawn
contributions, exactly as the specification words them (with the
advancement formulas `5 - r` / `r + 5`). -/
theorem evaluate_pawn_structure_eq (b : Board) (color : Color) :
    evaluate_pawn_structure b color =
      ((pawnPositions b color).map
        (pawnContrib b color (pawnPositions b color))).sum := by
  rw [evaluate_pawn_structure]
  have hgen : ∀ (l : List Coord) (s : Int),
      l.foldl (pawnStructureStep b color (pawnPositions b color)) s =
        s + (l.map (pawnContrib b color (pawnPositions b color))).sum := by
    intro l
    induction l with
    | nil => intro s; simp
    | cons x xs ih =>
        intro s
        rw [List.foldl_cons, pawnStructureStep_eq, ih, List.map_cons,
          List.sum_cons]
        ring
  rw [hgen]
  ring

end ChessEngine

namespace ChessEngine

/-- The ranks the passed-pawn check scans: strictly ahead of `r` in the
pawn's advancing direction, within the fixed span of 5 ranks each side of
center. -/
def strictlyAhead (color : Color) (r r' : Int) : Prop :=
  if color = Color.white then -5 ≤ r' ∧ r' ≤ r - 1 else r + 1 ≤ r' ∧ r' ≤ 5

theorem mem_checkRRange {color : Color} {r r' : Int} :
    r' ∈ checkRRange color r ↔ strictlyAhead color r r' := by
  cases color <;>
    simp only [checkRRange, strictlyAhead, List.mem_map, List.mem_range,
      if_true, if_neg, reduceCtorEq, reduceIte] <;>
    constructor
  · rintro ⟨i, hi, rfl⟩
    omega
  · rintro ⟨h1, h2⟩
    exact ⟨(r - 1 - r').toNat, by omega, by omega⟩
  · rintro ⟨i, hi, rfl⟩
    omega
  · rintro ⟨h1, h2⟩
    exact ⟨(r' - r - 1).toNat, by omega, by omega⟩

/-- `_is_passed_pawn` holds exactly when no enemy pawn stands on the
pawn's file or either adjacent file, on any scanned rank strictly ahead. -/
theorem is_passed_pawn_iff (b : Board) (q r : Int) (color : Color) :
    _is_passed_pawn b q r color = true ↔
      ∀ q' r' : Int, (q' = q - 1 ∨ q' = q ∨ q' = q + 1) →
        strictlyAhead color r r' →
        get_tile b q' r' ≠
          some (some ((if color = Color.white then Color.black
            else Color.white), PieceName.pawn)) := by
  rw [_is_passed_pawn]
  rw [List.all_eq_true]
  constructor
  · intro h q' r' hq' hr' heq
    have hq'mem : q' ∈ [q - 1, q, q + 1] := by
      rcases hq' with h1 | h1 | h1 <;> simp [h1]
    have hx := h q' hq'mem
    rw [List.all_eq_true] at hx
    have hy := hx r' (mem_checkRRange.mpr hr')
    rw [heq] at hy
    simp at hy
  · intro h q' hq'
    rw [List.all_eq_true]
    intro r' hr'
    rcases hget : get_tile b q' r' with _ | t
    · simp
    · rcases t with _ | ⟨pc, pn⟩
      · simp
      · have hne := h q' r'
          (by rcases List.mem_cons.mp hq' with h1 | h1
              · exact Or.inl h1
              · rcases List.mem_cons.mp h1 with h2 | h2
                · exact Or.inr (Or.inl h2)
                · simp only [List.mem_singleton] at h2
                  exact Or.inr (Or.inr h2))
          (mem_checkRRange.mp hr')
        rw [hget] at hne
        by_cases hpc : pc = (if color = Color.white then Color.black
            else Color.white) <;>
          by_cases hpn : pn = PieceName.pawn <;>
          simp_all

end ChessEngine

namespace SearchEngine

/-- Claim-side heuristic: the three bonuses summed additively, for a move
whose origin tile holds `attacker` and whose destination tile content is
`tt`. -/
def moveScoreClaim (env : Env) (board : Board) (move : Move)
    (attacker : Color × PieceName) (tt : Tile) : Int :=
  (match tt with
   | some (_, victim) =>
       10000 + (ChessEngine.PIECE_VALUES victim * 10 -
         ChessEngine.PIECE_VALUES attacker.2)
   | none => 0) +
  (if attacker.2 = PieceName.pawn &&
      env.is_promotion_square board move.2 attacker.1 then 9000
   else 0) +
  (if move.2 ∈ center_hexes then 50 else 0)

/-- For any move from an occupied on-board tile to an on-board tile,
`move_score` is exactly the additive sum of the capture, promotion and
center bonuses. -/
theorem move_score_eq (env : Env) (board : Board) (move : Move)
    (attacker : Color × PieceName) (tt : Tile)
    (hfrom : ChessEngine.get_tile board move.1.q move.1.r =
      some (some attacker))
    (hto : ChessEngine.get_tile board move.2.q move.2.r = some tt) :
    move_score env board move = moveScoreClaim env board move attacker tt := by
  rw [move_score, hfrom, hto]
  obtain ⟨ac, an⟩ := attacker
  unfold moveScoreClaim
  rcases tt with _ | ⟨vc, vn⟩ <;> dsimp only <;> split <;> split <;> omega

theorem piece_values_ge (pn : PieceName) :
    100 ≤ ChessEngine.PIECE_VALUES pn := by
  cases pn <;> decide

/-- Bonus additivity: a pawn move that captures, promotes and lands in the
center outscores any move exhibiting a strict subset of those properties,
all else equal (pawn attacker, same victim when the other move captures). -/
theorem move_score_additive_gt (env : Env) (board : Board) (m1 m2 : Move)
    (c1 c2 vc : Color) (vp : PieceName) (tt2 : Tile)
    (h1f : ChessEngine.get_tile board m1.1.q m1.1.r =
      some (some (c1, PieceName.pawn)))
    (h1t : ChessEngine.get_tile board m1.2.q m1.2.r = some (some (vc, vp)))
    (h1p : env.is_promotion_square board m1.2 c1 = true)
    (h1c : m1.2 ∈ center_hexes)
    (h2f : ChessEngine.get_tile board m2.1.q m2.1.r =
      some (some (c2, PieceName.pawn)))
    (h2t : ChessEngine.get_tile board m2.2.q m2.2.r = some tt2)
    (h2v : ∀ x, tt2 = some x → x.2 = vp)
    (hsub : ¬ (tt2.isSome = true ∧
      env.is_promotion_square board m2.2 c2 = true ∧ m2.2 ∈ center_hexes)) :
    move_score env board m2 < move_score env board m1 := by
  rw [move_score_eq env board m1 (c1, PieceName.pawn) _ h1f h1t]
  rw [move_score_eq env board m2 (c2, PieceName.pawn) _ h2f h2t]
  have hval := piece_values_ge vp
  have h1 : moveScoreClaim env board m1 (c1, PieceName.pawn)
      (some (vc, vp)) =
      10000 + (ChessEngine.PIECE_VALUES vp * 10 - 100) + 9000 + 50 := by
    unfold moveScoreClaim
    simp [h1p, h1c, ChessEngine.PIECE_VALUES]
  rw [h1]
  rcases tt2 with _ | ⟨v2c, v2n⟩
  · -- m2 is not a capture: its score is at most 9050
    have h2 : moveScoreClaim env board m2 (c2, PieceName.pawn) none ≤
        9050 := by
      unfold moveScoreClaim
      dsimp only
      split <;> split <;> omega
    omega
  · -- m2 captures the same victim type but misses promotion or center
    have hv2 : v2n = vp := h2v (v2c, v2n) rfl
    subst hv2
    simp only [Option.isSome_some, true_and] at hsub
    have h2 : moveScoreClaim env board m2 (c2, PieceName.pawn)
        (some (v2c, v2n)) ≤
        10000 + (ChessEngine.PIECE_VALUES v2n * 10 - 100) + 9000 := by
      unfold moveScoreClaim
      dsimp only
      by_cases hp2 : env.is_promotion_square board m2.2 c2 = true <;>
        by_cases hc2 : m2.2 ∈ center_hexes
      · exact absurd ⟨hp2, hc2⟩ hsub
      · rw [if_neg hc2]
        simp only [ChessEngine.PIECE_VALUES]
        split <;> omega
      · rw [if_pos hc2]
        have hb : ((c2, PieceName.pawn).2 = PieceName.pawn &&
            env.is_promotion_square board m2.2 (c2, PieceName.pawn).1) =
            false := by
          simp [hp2]
        rw [hb, if_neg]
        · simp only [ChessEngine.PIECE_VALUES]
          omega
        · simp
      · rw [if_neg hc2]
        simp only [ChessEngine.PIECE_VALUES]
        split <;> omega
    omega

end SearchEngine

namespace SearchEngine

theorem root_moves_loop_best_mem (env : Env) (b : Board) (color : Color)
    (cd : Nat) (t : Nat → Bool) :
    ∀ (ms : List Move) (acc : Option Move × EScore) (tick : Nat),
      (root_moves_loop env b color cd t ms acc tick).1.1 = acc.1 ∨
      ∃ m ∈ ms, (root_moves_loop env b color cd t ms acc tick).1.1 =
        some m := by
  intro ms
  induction ms with
  | nil => intro acc tick; exact Or.inl rfl
  | cons move rest ih =>
      intro acc tick
      rw [root_moves_loop]
      split
      · exact Or.inl rfl
      · dsimp only
        rcases ih (if (if color = Color.white then
            decide (acc.2 < _minimax env (cd - 1)
              (_make_move_with_auto_promotion env b move.1 move.2)
              .ninf .pinf
              ((_make_move_with_auto_promotion env b move.1
                move.2).current_turn = .white))
            else decide (_minimax env (cd - 1)
              (_make_move_with_auto_promotion env b move.1 move.2)
              .ninf .pinf
              ((_make_move_with_auto_promotion env b move.1
                move.2).current_turn = .white) < acc.2)) = true then
            (some move, _minimax env (cd - 1)
              (_make_move_with_auto_promotion env b move.1 move.2)
              .ninf .pinf
              ((_make_move_with_auto_promotion env b move.1
                move.2).current_turn = .white))
          else acc) (tick + 1) with h | h
        · rw [h]
          split <;> split
          · exact Or.inr ⟨move, List.mem_cons_self move rest, rfl⟩
          · exact Or.inl rfl
          · exact Or.inr ⟨move, List.mem_cons_self move rest, rfl⟩
          · exact Or.inl rfl
        · obtain ⟨m, hm, hres⟩ := h
          exact Or.inr ⟨m, List.mem_cons_of_mem move hm, hres⟩

theorem root_moves_loop_isSome (env : Env) (b : Board) (color : Color)
    (cd : Nat) (t : Nat → Bool) :
    ∀ (ms : List Move) (acc : Option Move × EScore) (tick : Nat),
      acc.1.isSome = true →
      (root_moves_loop env b color cd t ms acc tick).1.1.isSome = true := by
  intro ms
  induction ms with
  | nil => intro acc tick h; exact h
  | cons move rest ih =>
      intro acc tick h
      rw [root_moves_loop]
      split
      · exact h
      · dsimp only
        refine ih _ _ ?_
        split <;> split
        · rfl
        · exact h
        · rfl
        · exact h

theorem iterative_deepening_best_mem (env : Env) (b : Board) (color : Color)
    (t : Nat → Bool) (moves : List Move) :
    ∀ (cd fuel : Nat) (acc : Option Move × EScore) (tick : Nat),
      (iterative_deepening env b color t moves cd fuel acc tick).1.1 =
        acc.1 ∨
      ∃ m ∈ moves,
        (iterative_deepening env b color t moves cd fuel acc tick).1.1 =
          some m := by
  intro cd fuel
  induction fuel generalizing cd with
  | zero => intro acc tick; exact Or.inl rfl
  | succ fuel ih =>
      intro acc tick
      rw [iterative_deepening]
      split
      · exact Or.inl rfl
      · dsimp only
        rcases ih (cd + 1) _ _ with h | h
        · rw [h]
          rcases root_moves_loop_best_mem env b color cd t moves acc (tick + 1)
            with h2 | h2
          · exact Or.inl h2
          · exact Or.inr h2
        · exact Or.inr h

theorem iterative_deepening_isSome (env : Env) (b : Board) (color : Color)
    (t : Nat → Bool) (moves : List Move) :
    ∀ (cd fuel : Nat) (acc : Option Move × EScore) (tick : Nat),
      acc.1.isSome = true →
      (iterative_deepening env b color t moves cd fuel acc
        tick).1.1.isSome = true := by
  intro cd fuel
  induction fuel generalizing cd with
  | zero => intro acc tick h; exact h
  | succ fuel ih =>
      intro acc tick h
      rw [iterative_deepening]
      split
      · exact h
      · exact ih (cd + 1) _ _
          (root_moves_loop_isSome env b color cd t moves acc (tick + 1) h)

end SearchEngine

namespace SearchEngine

/-- When at least one legal root move exists and the clock does not expire
before the first root move is scored, `find_best_move` returns one of the
legal moves. -/
theorem find_best_move_some (env : Env) (b : Board) (depth : Nat)
    (t : Nat → Bool)
    (hmoves : _get_all_legal_moves env b b.current_turn ≠ [])
    (hd : 1 ≤ depth) (h0 : t 0 = false) (h1 : t 1 = false) :
    ∃ m, (find_best_move env b depth t).1 = some m ∧
      m ∈ _get_all_legal_moves env b b.current_turn := by
  obtain ⟨fuel, rfl⟩ : ∃ fuel, depth = fuel + 1 :=
    ⟨depth - 1, by omega⟩
  rw [find_best_move]
  dsimp only
  rw [if_neg hmoves]
  rw [iterative_deepening]
  rw [if_neg (by simp [h0])]
  dsimp only
  obtain ⟨m0, rest, hms⟩ :=
    List.exists_cons_of_ne_nil (sortDesc_ne_nil (move_score env b) hmoves)
  rw [show _order_moves env b (_get_all_legal_moves env b b.current_turn) =
    m0 :: rest from hms]
  rw [root_moves_loop]
  rw [if_neg (by simp [h1])]
  dsimp only
  have hupd : (if b.current_turn = Color.white then
      decide ((none (α := Move),
        if b.current_turn = Color.white then EScore.ninf
        else EScore.pinf).2 <
        _minimax env (1 - 1)
          (_make_move_with_auto_promotion env b m0.1 m0.2) .ninf .pinf
          ((_make_move_with_auto_promotion env b m0.1
            m0.2).current_turn = .white))
      else decide (_minimax env (1 - 1)
          (_make_move_with_auto_promotion env b m0.1 m0.2) .ninf .pinf
          ((_make_move_with_auto_promotion env b m0.1
            m0.2).current_turn = .white) <
        (none (α := Move),
          if b.current_turn = Color.white then EScore.ninf
          else EScore.pinf).2)) = true := by
    obtain ⟨q, hq⟩ := (minimax_isFin env 0
      (_make_move_with_auto_promotion env b m0.1 m0.2) .ninf .pinf
      ((_make_move_with_auto_promotion env b m0.1
        m0.2).current_turn = .white)).exists_fin
    cases hcol : b.current_turn <;> simp [hcol, hq]
  rw [if_pos hupd]
  have hmem : ∀ m, m ∈ m0 :: rest →
      m ∈ _get_all_legal_moves env b b.current_turn := by
    intro m hm
    rw [← hms] at hm
    exact (sortDesc_perm (move_score env b) _).mem_iff.mp hm
  rcases iterative_deepening_best_mem env b b.current_turn t (m0 :: rest)
    2 fuel _ _ with h | h
  · rcases root_moves_loop_best_mem env b b.current_turn 1 t rest _ 2
      with h2 | h2
    · refine ⟨m0, ?_, hmem m0 (List.mem_cons_self m0 rest)⟩
      rw [h, h2]
    · obtain ⟨m, hm, hres⟩ := h2
      refine ⟨m, ?_, hmem m (List.mem_cons_of_mem m0 hm)⟩
      rw [h, hres]
  · obtain ⟨m, hm, hres⟩ := h
    exact ⟨m, hres, hmem m hm⟩

end SearchEngine

/-- The validator/generator references are unchanged between two states. -/
def VGpres (st out : SState) : Prop :=
  out.validator_board = st.validator_board ∧
  out.generator_board = st.generator_board

/-- Both references point (equal to each other) at some object at index at
least `base` — i.e. at a board allocated during the search. -/
def VGfresh (base : Nat) (out : SState) : Prop :=
  out.validator_board = out.generator_board ∧ base ≤ out.validator_board

namespace SearchEngine

/-- Child contract for the validator-tracking loop lemmas: a child call
either leaves both references unchanged (depth-0 child) or points both at
its own board argument or at an even fresher object. -/
def ChildV (child : Nat → EScore → EScore → SState → EScore × SState) :
    Prop :=
  ∀ r a c st, VGpres st (child r a c st).2 ∨
    ((child r a c st).2.validator_board =
      (child r a c st).2.generator_board ∧
     ((child r a c st).2.validator_board = r ∨
      st.heap.length ≤ (child r a c st).2.validator_board))

theorem ab_loop_max_s_validator (env : Env) (ref : Nat)
    (child : Nat → EScore → EScore → SState → EScore × SState)
    (hchild : ChildV child)
    (hext : ∀ r a c st, HeapExtends st (child r a c st).2) :
    ∀ (ms : List Move) (best alpha beta : EScore) (s : SState),
      VGpres s (ab_loop_max_s env ref child ms best alpha beta s).2 ∨
      VGfresh s.heap.length
        (ab_loop_max_s env ref child ms best alpha beta s).2 := by
  intro ms
  induction ms with
  | nil => intro best alpha beta s; exact Or.inl ⟨rfl, rfl⟩
  | cons move rest ih =>
      intro best alpha beta s
      rw [ab_loop_max_s]
      have hlen2 : (_make_move_s env (allocB s (readB s ref)).1 move
          (allocB s (readB s ref)).2).heap.length = s.heap.length + 1 :=
        _make_move_s_alloc_length env s _ move
      have hchlen := (hext (allocB s (readB s ref)).1 alpha beta
        (_make_move_s env (allocB s (readB s ref)).1 move
          (allocB s (readB s ref)).2)).1
      rcases hchild (allocB s (readB s ref)).1 alpha beta
        (_make_move_s env (allocB s (readB s ref)).1 move
          (allocB s (readB s ref)).2) with hc | hc
      · -- child preserved the references
        split
        · exact Or.inl hc
        · rcases ih _ _ _ _ with h | h
          · exact Or.inl ⟨h.1.trans hc.1, h.2.trans hc.2⟩
          · refine Or.inr ⟨h.1, le_trans ?_ h.2⟩
            omega
      · -- child pointed the references at a fresh board
        have hfresh : s.heap.length ≤ (child (allocB s (readB s ref)).1
            alpha beta (_make_move_s env (allocB s (readB s ref)).1 move
              (allocB s (readB s ref)).2)).2.validator_board := by
          rcases hc.2 with h | h
          · rw [h, allocB_fst]
          · omega
        split
        · exact Or.inr ⟨hc.1, hfresh⟩
        · rcases ih _ _ _ _ with h | h
          · exact Or.inr ⟨h.1.trans (hc.1.trans h.2.symm),
              by rw [h.1]; exact hfresh⟩
          · refine Or.inr ⟨h.1, le_trans ?_ h.2⟩
            omega

end SearchEngine

namespace SearchEngine

theorem ab_loop_min_s_validator (env : Env) (ref : Nat)
    (child : Nat → EScore → EScore → SState → EScore × SState)
    (hchild : ChildV child)
    (hext : ∀ r a c st, HeapExtends st (child r a c st).2) :
    ∀ (ms : List Move) (best alpha beta : EScore) (s : SState),
      VGpres s (ab_loop_min_s env ref child ms best alpha beta s).2 ∨
      VGfresh s.heap.length
        (ab_loop_min_s env ref child ms best alpha beta s).2 := by
  intro ms
  induction ms with
  | nil => intro best alpha beta s; exact Or.inl ⟨rfl, rfl⟩
  | cons move rest ih =>
      intro best alpha beta s
      rw [ab_loop_min_s]
      have hlen2 : (_make_move_s env (allocB s (readB s ref)).1 move
          (allocB s (readB s ref)).2).heap.length = s.heap.length + 1 :=
        _make_move_s_alloc_length env s _ move
      have hchlen := (hext (allocB s (readB s ref)).1 alpha beta
        (_make_move_s env (allocB s (readB s ref)).1 move
          (allocB s (readB s ref)).2)).1
      rcases hchild (allocB s (readB s ref)).1 alpha beta
        (_make_move_s env (allocB s (readB s ref)).1 move
          (allocB s (readB s ref)).2) with hc | hc
      · split
        · exact Or.inl hc
        · rcases ih _ _ _ _ with h | h
          · exact Or.inl ⟨h.1.trans hc.1, h.2.trans hc.2⟩
          · refine Or.inr ⟨h.1, le_trans ?_ h.2⟩
            omega
      · have hfresh : s.heap.length ≤ (child (allocB s (readB s ref)).1
            alpha beta (_make_move_s env (allocB s (readB s ref)).1 move
              (allocB s (readB s ref)).2)).2.validator_board := by
          rcases hc.2 with h | h
          · rw [h, allocB_fst]
          · omega
        split
        · exact Or.inr ⟨hc.1, hfresh⟩
        · rcases ih _ _ _ _ with h | h
          · exact Or.inr ⟨h.1.trans (hc.1.trans h.2.symm),
              by rw [h.1]; exact hfresh⟩
          · refine Or.inr ⟨h.1, le_trans ?_ h.2⟩
            omega

/-- At depth 0, `_minimax` does not touch the validator references. -/
theorem minimax_s_zero_validator (env : Env) (ref : Nat)
    (alpha beta : EScore) (mx : Bool) (s : SState) :
    VGpres s (minimax_s env 0 ref alpha beta mx s).2 :=
  ⟨rfl, rfl⟩

/-- At depth ≥ 1, `_minimax` leaves both validator references equal to each
other, pointing either at its own board argument or at a board allocated
during the call. -/
theorem minimax_s_validator (env : Env) :
    ∀ (d : Nat) (ref : Nat) (alpha beta : EScore) (mx : Bool) (s : SState),
      1 ≤ d →
      (minimax_s env d ref alpha beta mx s).2.validator_board =
        (minimax_s env d ref alpha beta mx s).2.generator_board ∧
      ((minimax_s env d ref alpha beta mx s).2.validator_board = ref ∨
        s.heap.length ≤
          (minimax_s env d ref alpha beta mx s).2.validator_board) := by
  intro d
  induction d with
  | zero => intro ref alpha beta mx s h; omega
  | succ d ih =>
      intro ref alpha beta mx s _
      have hchild1 : ChildV
          (fun r a c st => minimax_s env d r a c false st) := by
        intro r a c st
        cases d with
        | zero => exact Or.inl (minimax_s_zero_validator env r a c false st)
        | succ d' =>
            have h := ih r a c false st (by omega)
            exact Or.inr ⟨h.1, h.2⟩
      have hchild2 : ChildV
          (fun r a c st => minimax_s env d r a c true st) := by
        intro r a c st
        cases d with
        | zero => exact Or.inl (minimax_s_zero_validator env r a c true st)
        | succ d' =>
            have h := ih r a c true st (by omega)
            exact Or.inr ⟨h.1, h.2⟩
      rw [minimax_s]
      split
      · exact ⟨rfl, Or.inl rfl⟩
      · exact ⟨rfl, Or.inl rfl⟩
      · exact ⟨rfl, Or.inl rfl⟩
      · dsimp only
        split
        · split
          · exact ⟨rfl, Or.inl rfl⟩
          · rcases ab_loop_max_s_validator env ref _ hchild1
              (fun r a c st => minimax_s_extends env d r a c false st)
              _ .ninf alpha beta _ with h | h
            · exact ⟨h.1.trans h.2.symm, Or.inl h.1⟩
            · exact ⟨h.1, Or.inr h.2⟩
        · split
          · exact ⟨rfl, Or.inl rfl⟩
          · rcases ab_loop_min_s_validator env ref _ hchild2
              (fun r a c st => minimax_s_extends env d r a c true st)
              _ .pinf alpha beta _ with h | h
            · exact ⟨h.1.trans h.2.symm, Or.inl h.1⟩
            · exact ⟨h.1, Or.inr h.2⟩

end SearchEngine

namespace SearchEngine

/-- At `current_depth = 1`, the root move-loop (whose child searches run at
depth 0) leaves the validator references untouched. -/
theorem root_moves_loop_s_validator_d1 (env : Env) (ref : Nat)
    (color : Color) (timeUp : Nat → Bool) :
    ∀ (ms : List Move) (acc : Option Move × EScore) (tick : Nat)
      (s : SState),
      VGpres s (root_moves_loop_s env ref color 1 timeUp ms acc tick
        s).2.2 := by
  intro ms
  induction ms with
  | nil => intro acc tick s; exact ⟨rfl, rfl⟩
  | cons move rest ih =>
      intro acc tick s
      rw [root_moves_loop_s]
      split
      · exact ⟨rfl, rfl⟩
      · dsimp only
        rw [Nat.sub_self]
        have h := minimax_s_zero_validator env (allocB s (readB s ref)).1
          .ninf .pinf
          (decide ((readB (_make_move_s env (allocB s (readB s ref)).1 move
            (allocB s (readB s ref)).2) (allocB s (readB s ref)).1
            ).current_turn = Color.white))
          (_make_move_s env (allocB s (readB s ref)).1 move
            (allocB s (readB s ref)).2)
        refine ⟨(ih _ _ _).1.trans ?_, (ih _ _ _).2.trans ?_⟩ <;>
            split <;> split <;>
          first
            | exact h.1
            | exact h.2

/-- At `current_depth ≥ 2` with a non-empty move list and a clock that
never expires, the root move-loop leaves both validator references equal,
pointing at a board allocated during the search (index at least the entry
heap length). -/
theorem root_moves_loop_s_validator_ge (env : Env) (ref : Nat)
    (color : Color) (cd : Nat) (timeUp : Nat → Bool) (hcd : 2 ≤ cd)
    (ht : ∀ k, timeUp k = false) :
    ∀ (ms : List Move) (acc : Option Move × EScore) (tick : Nat)
      (s : SState) (base : Nat), base ≤ s.heap.length →
      (ms = [] → VGfresh base s) →
      VGfresh base
        (root_moves_loop_s env ref color cd timeUp ms acc tick s).2.2 := by
  intro ms
  induction ms with
  | nil => intro acc tick s base _ hnil; exact hnil rfl
  | cons move rest ih =>
      intro acc tick s base hbase _
      rw [root_moves_loop_s]
      rw [if_neg (by simp [ht tick])]
      dsimp only
      have hmm := minimax_s_validator env (cd - 1) (allocB s (readB s ref)).1
        .ninf .pinf
        ((readB (_make_move_s env (allocB s (readB s ref)).1 move
          (allocB s (readB s ref)).2) (allocB s (readB s ref)).1
          ).current_turn = .white)
        (_make_move_s env (allocB s (readB s ref)).1 move
          (allocB s (readB s ref)).2) (by omega)
      have hlen2 : (_make_move_s env (allocB s (readB s ref)).1 move
          (allocB s (readB s ref)).2).heap.length = s.heap.length + 1 :=
        _make_move_s_alloc_length env s _ move
      have hfresh : VGfresh base
          (minimax_s env (cd - 1) (allocB s (readB s ref)).1 .ninf .pinf
            ((readB (_make_move_s env (allocB s (readB s ref)).1 move
              (allocB s (readB s ref)).2) (allocB s (readB s ref)).1
              ).current_turn = .white)
            (_make_move_s env (allocB s (readB s ref)).1 move
              (allocB s (readB s ref)).2)).2 := by
        refine ⟨hmm.1, ?_⟩
        rcases hmm.2 with h | h
        · rw [h, allocB_fst]; omega
        · omega
      have hext := minimax_s_extends env (cd - 1) (allocB s (readB s ref)).1
        .ninf .pinf
        ((readB (_make_move_s env (allocB s (readB s ref)).1 move
          (allocB s (readB s ref)).2) (allocB s (readB s ref)).1
          ).current_turn = .white)
        (_make_move_s env (allocB s (readB s ref)).1 move
          (allocB s (readB s ref)).2)
      have hite : ∀ (u : Bool) (st : SState) (m : Move),
          (if u = true then { st with best_move_this_iteration := some m }
            else st).validator_board = st.validator_board ∧
          (if u = true then { st with best_move_this_iteration := some m }
            else st).generator_board = st.generator_board ∧
          (if u = true then { st with best_move_this_iteration := some m }
            else st).heap.length = st.heap.length := by
        intro u st m
        split <;> exact ⟨rfl, rfl, rfl⟩
      refine ih _ (tick + 1) _ base ?_ ?_
      · rw [(hite _ _ _).2.2]
        have h1 := hext.1
        omega
      · intro _
        refine ⟨((hite _ _ _).1).trans
          (hfresh.1.trans ((hite _ _ _).2.1).symm), ?_⟩
        rw [(hite _ _ _).1]
        exact hfresh.2

end SearchEngine

namespace SearchEngine

/-- With a never-expiring clock and a non-empty root-move list, the
iterative-deepening loop started at any depth ≥ 2 with at least one
iteration of fuel leaves both validator references equal, pointing at a
board allocated during the search. -/
theorem iterative_deepening_s_validator (env : Env) (ref : Nat)
    (color : Color) (timeUp : Nat → Bool) (ht : ∀ k, timeUp k = false)
    (ms : List Move) (hms : ms ≠ []) :
    ∀ (fuel cd : Nat) (acc : Option Move × EScore) (tick : Nat)
      (s : SState) (base : Nat),
      2 ≤ cd → base ≤ s.heap.length → 1 ≤ fuel →
      VGfresh base
        (iterative_deepening_s env ref color timeUp ms cd fuel acc tick
          s).2.2 := by
  intro fuel
  induction fuel with
  | zero => intro cd acc tick s base _ _ hf; omega
  | succ fuel ih =>
      intro cd acc tick s base hcd hbase _
      rw [iterative_deepening_s]
      rw [if_neg (by simp [ht tick])]
      cases fuel with
      | zero =>
          rw [iterative_deepening_s]
          exact root_moves_loop_s_validator_ge env ref color cd timeUp hcd
            ht ms acc (tick + 1) s base hbase (fun h => absurd h hms)
      | succ fuel' =>
          refine ih (cd + 1) _ _ _ base (by omega) ?_ (by omega)
          exact le_trans hbase
            (root_moves_loop_s_extends env ref color cd timeUp ms acc
              (tick + 1) s).1

end SearchEngine

namespace SearchEngine

/-- As `find_best_move` runs it: iterative deepening started at depth 1
with total depth ≥ 2 and a never-expiring clock points both validator
references at a board allocated during the search. -/
theorem iterative_deepening_s_validator_one (env : Env) (ref : Nat)
    (color : Color) (timeUp : Nat → Bool) (ht : ∀ k, timeUp k = false)
    (ms : List Move) (hms : ms ≠ []) (fuel : Nat)
    (acc : Option Move × EScore) (tick : Nat) (s : SState) (base : Nat)
    (hf : 2 ≤ fuel) (hbase : base ≤ s.heap.length) :
    VGfresh base
      (iterative_deepening_s env ref color timeUp ms 1 fuel acc tick
        s).2.2 := by
  cases fuel with
  | zero => omega
  | succ f =>
      rw [iterative_deepening_s]
      rw [if_neg (by simp [ht tick])]
      refine iterative_deepening_s_validator env ref color timeUp ht ms hms
        f 2 _ _ _ base (by omega) ?_ (by omega)
      exact le_trans hbase
        (root_moves_loop_s_extends env ref color 1 timeUp ms acc (tick + 1)
          s).1

/-- After `find_best_move` at depth ≥ 2 (never-expiring clock, at least one
legal root move), the engine's validator and generator references are equal
and point at a board allocated during the search — a search copy, not any
pre-existing object. -/
theorem find_best_move_s_validator (env : Env) (ref : Nat) (depth : Nat)
    (timeUp : Nat → Bool) (s : SState) (ht : ∀ k, timeUp k = false)
    (hd : 2 ≤ depth)
    (hmoves : _get_all_legal_moves env (readB s ref)
      (readB s ref).current_turn ≠ []) :
    (find_best_move_s env ref depth timeUp s).2.validator_board =
      (find_best_move_s env ref depth timeUp s).2.generator_board ∧
    s.heap.length ≤
      (find_best_move_s env ref depth timeUp s).2.validator_board := by
  rw [find_best_move_s]
  dsimp only
  split
  · exact absurd (by assumption) hmoves
  · exact iterative_deepening_s_validator_one env ref _ timeUp ht _
      (sortDesc_ne_nil _ hmoves) depth _ 0 _ s.heap.length hd le_rfl

end SearchEngine

/-! ## Concrete fixtures -/

/-- A time budget that never expires. -/
def tOff : Nat → Bool := fun _ => false

/-- A time budget that has already expired at every check. -/
def tOn : Nat → Bool := fun _ => true

/-- A minimal position: a single white pawn on `(0, 1)` — one of the
starting-rank squares of `PAWN_PST` — with white to move. -/
def testBoard : Board :=
  { tiles := [(⟨0, 1⟩, some (Color.white, PieceName.pawn))]
    current_turn := Color.white
    en_passant := none
    pending_promotion := none
    captured_pieces := [] }

/-- The same position with black to move. -/
def blackBoard : Board := { testBoard with current_turn := Color.black }

/-- Fixture collaborators: a move flips the side to move, every piece has
the single pseudo-move to `(0, 0)`, no promotion squares, game always
ongoing. -/
def testEnv : Env :=
  { move_piece := fun b _ _ =>
      { b with current_turn :=
          if b.current_turn = Color.white then Color.black
          else Color.white }
    promote_pawn := fun b _ => b
    is_promotion_square := fun _ _ _ => false
    legal_moves_with_check := fun _ _ => [⟨0, 0⟩]
    game_status := fun _ => GameStatus.ongoing }

/-- Same collaborators, but every position with black to move is
checkmate. -/
def envMate : Env :=
  { testEnv with game_status := fun b =>
      if b.current_turn = Color.black then GameStatus.checkmate
      else GameStatus.ongoing }

/-- Same collaborators, but every square is a promotion square. -/
def envPromo : Env :=
  { testEnv with is_promotion_square := fun _ _ _ => true }

/-- Initial engine state: the caller's board is heap object 0, both
validator references point at it. -/
def s0 : SState :=
  { heap := [testBoard]
    validator_board := 0
    generator_board := 0
    nodes_searched := 0
    enum_calls := 0
    best_move_this_iteration := none }

/-- Move-ordering fixture board: a white pawn that can capture the black
queen on the centre square or step to an empty non-central square. -/
def bC7 : Board :=
  { tiles := [(⟨2, 2⟩, some (Color.white, PieceName.pawn)),
              (⟨0, 0⟩, some (Color.black, PieceName.queen)),
              (⟨5, 5⟩, none)]
    current_turn := Color.white
    en_passant := none
    pending_promotion := none
    captured_pieces := [] }

/-- The capture-promote-centre move of the fixture. -/
def m1fix : Move := (⟨2, 2⟩, ⟨0, 0⟩)

/-- The quiet move of the fixture. -/
def m2fix : Move := (⟨2, 2⟩, ⟨5, 5⟩)

namespace SearchEngine

/-- At any node with remaining depth ≥ 1 whose status is checkmate,
`_minimax` returns the signed mate magnitude. -/
theorem minimax_checkmate (env : Env) (b : Board) (d : Nat)
    (alpha beta : EScore) (mx : Bool) (hd : 1 ≤ d)
    (hst : env.game_status b = GameStatus.checkmate) :
    _minimax env d b alpha beta mx =
      if mx then .fin (-(mate_magnitude d)) else .fin (mate_magnitude d) := by
  obtain ⟨k, rfl⟩ : ∃ k, d = k + 1 := ⟨d - 1, by omega⟩
  rw [_minimax, hst]

/-- The mate magnitude `20000 - (10 - d)` is strictly increasing in the
remaining depth `d`. -/
theorem mate_magnitude_lt {d2 d1 : Nat} (h : d2 < d1) :
    mate_magnitude d2 < mate_magnitude d1 := by
  unfold mate_magnitude
  have hq : (d2 : ℚ) < (d1 : ℚ) := by exact_mod_cast h
  linarith

end SearchEngine

/-! ## Claim theorems -/

/-- C1: Rollback fidelity — a `find_best_move` run, and every recursive
`_minimax` exploration inside one, leaves every pre-existing board object
(the caller's position included) equal in every field to its value before
the call: candidate moves are applied only to freshly allocated copies. -/
theorem C1_rollback_fidelity (env : Env) (ref depth d : Nat)
    (alpha beta : EScore) (mx : Bool) (timeUp : Nat → Bool) (s : SState)
    (i : Nat) (hi : i < s.heap.length) :
    readB (SearchEngine.find_best_move_s env ref depth timeUp s).2 i =
      readB s i ∧
    readB (SearchEngine.minimax_s env d ref alpha beta mx s).2 i =
      readB s i :=
  ⟨readB_of_extends
      (SearchEngine.find_best_move_s_extends env ref depth timeUp s) hi,
   readB_of_extends
      (SearchEngine.minimax_s_extends env d ref alpha beta mx s) hi⟩

/-- C1 witness: the depth-3 fixture run leaves the caller's board object 0
untouched. -/
theorem C1_rollback_fidelity_witness :
    0 < s0.heap.length ∧
    readB (SearchEngine.find_best_move_s testEnv 0 3 tOff s0).2 0 =
      readB s0 0 :=
  ⟨by decide,
   (C1_rollback_fidelity testEnv 0 3 2 .ninf .pinf true tOff s0 0
      (by decide)).1⟩

/-- C2: Alpha-beta equivalence — over the full window, pruned `_minimax`
equals exhaustive minimax at every position and depth, and `find_best_move`
returns exactly the same move and score as its pruning-free variant. -/
theorem C2_alpha_beta_equivalence (env : Env) (d : Nat) (b : Board)
    (mx : Bool) (depth : Nat) (timeUp : Nat → Bool) :
    SearchEngine._minimax env d b .ninf .pinf mx =
      SearchEngine.minimax_full env d b mx ∧
    SearchEngine.find_best_move env b depth timeUp =
      SearchEngine.find_best_move_full env b depth timeUp :=
  ⟨SearchEngine.minimax_ab_eq_full env d b mx,
   SearchEngine.find_best_move_full_eq env b depth timeUp⟩

/-- C3: Mate-distance scoring — at a node with remaining depth `d ≥ 1`
whose status is checkmate, `_minimax` returns magnitude
`20000 - (10 - d)`, negative when maximizing (the side to move is mated),
positive when minimizing; and of two mate nodes the one with larger
remaining depth (the shallower mate) scores strictly better for the
winning side. -/
theorem C3_mate_distance_scoring (env : Env) (b1 b2 : Board) (d1 d2 : Nat)
    (a1 a2 c1 c2 alpha beta : EScore) (mx : Bool)
    (h1 : env.game_status b1 = GameStatus.checkmate)
    (h2 : env.game_status b2 = GameStatus.checkmate)
    (hd2 : 1 ≤ d2) (hlt : d2 < d1) :
    (∀ d, 1 ≤ d →
      SearchEngine._minimax env d b1 alpha beta mx =
        if mx then .fin (-(SearchEngine.mate_magnitude d))
        else .fin (SearchEngine.mate_magnitude d)) ∧
    SearchEngine._minimax env d2 b2 a2 c2 false <
      SearchEngine._minimax env d1 b1 a1 c1 false ∧
    SearchEngine._minimax env d1 b1 a1 c1 true <
      SearchEngine._minimax env d2 b2 a2 c2 true := by
  refine ⟨fun d hd => SearchEngine.minimax_checkmate env b1 d alpha beta mx
    hd h1, ?_, ?_⟩
  · rw [SearchEngine.minimax_checkmate env b2 d2 a2 c2 false hd2 h2,
      SearchEngine.minimax_checkmate env b1 d1 a1 c1 false (by omega) h1]
    simp only [Bool.false_eq_true, if_false]
    exact EScore.fin_lt_fin.mpr (SearchEngine.mate_magnitude_lt hlt)
  · rw [SearchEngine.minimax_checkmate env b1 d1 a1 c1 true (by omega) h1,
      SearchEngine.minimax_checkmate env b2 d2 a2 c2 true hd2 h2]
    simp only [if_true]
    refine EScore.fin_lt_fin.mpr ?_
    have := SearchEngine.mate_magnitude_lt hlt
    linarith

/-- C3 witness: with the checkmate fixture, the mate one ply shallower
(remaining depth 2) outscores the deeper one (remaining depth 1) for the
winning side at a minimizing node. -/
theorem C3_mate_distance_scoring_witness :
    envMate.game_status blackBoard = GameStatus.checkmate ∧
    1 ≤ 1 ∧ 1 < 2 ∧
    SearchEngine._minimax envMate 1 blackBoard .ninf .pinf false <
      SearchEngine._minimax envMate 2 blackBoard .ninf .pinf false :=
  ⟨by decide, by decide, by decide,
   (C3_mate_distance_scoring envMate blackBoard blackBoard 2 1
      .ninf .ninf .pinf .pinf .ninf .pinf true (by decide) (by decide)
      (by decide) (by decide)).2.1⟩

/-- C4: `evaluate` returns the pair of (a) the sum over occupied squares
of the signed `materialValue + pstBonus`, plus the white-minus-black
pawn-structure difference, plus a ±10 tempo bonus for the side to move,
and (b) the total non-king material, with material values pawn 100,
knight 320, bishop 330, rook 500, queen 900, king 20000 (king excluded
from the total). -/
theorem C4_evaluate_decomposition (b : Board) :
    ChessEngine.evaluate b =
      ((b.tiles.map (ChessEngine.tileSignedScore
          (ChessEngine.calculate_game_phase b))).sum +
        ((ChessEngine.evaluate_pawn_structure b .white : ℚ) -
          (ChessEngine.evaluate_pawn_structure b .black : ℚ)) +
        (if b.current_turn = Color.white then 10 else -10),
       (b.tiles.map ChessEngine.tileMaterial).sum) ∧
    ChessEngine.PIECE_VALUES .pawn = 100 ∧
    ChessEngine.PIECE_VALUES .knight = 320 ∧
    ChessEngine.PIECE_VALUES .bishop = 330 ∧
    ChessEngine.PIECE_VALUES .rook = 500 ∧
    ChessEngine.PIECE_VALUES .queen = 900 ∧
    ChessEngine.PIECE_VALUES .king = 20000 ∧
    (∀ q c, ChessEngine.tileMaterial (q, some (c, PieceName.king)) = 0) :=
  ⟨ChessEngine.evaluate_eq b, rfl, rfl, rfl, rfl, rfl, rfl,
   fun _ _ => rfl⟩

/-- C5: `calculate_game_phase` is the per-piece weight sum (knight and
bishop 1, rook 2, queen 4, pawn and king 0) divided by 24 and clamped at 1;
it always lies in [0, 1], and removing any single piece never increases
it. -/
theorem C5_phase_range_monotonicity (b : Board) (i : Nat) :
    ChessEngine.calculate_game_phase b =
      min 1 ((ChessEngine.phaseWeightSum b.tiles : ℚ) / 24) ∧
    0 ≤ ChessEngine.calculate_game_phase b ∧
    ChessEngine.calculate_game_phase b ≤ 1 ∧
    ChessEngine.calculate_game_phase (ChessEngine.clearPieceAt b i) ≤
      ChessEngine.calculate_game_phase b ∧
    ChessEngine.phase_weights .pawn = 0 ∧
    ChessEngine.phase_weights .knight = 1 ∧
    ChessEngine.phase_weights .bishop = 1 ∧
    ChessEngine.phase_weights .rook = 2 ∧
    ChessEngine.phase_weights .queen = 4 ∧
    ChessEngine.phase_weights .king = 0 :=
  ⟨ChessEngine.calculate_game_phase_eq b,
   ChessEngine.calculate_game_phase_nonneg b,
   ChessEngine.calculate_game_phase_le_one b,
   ChessEngine.calculate_game_phase_clear_le b i,
   rfl, rfl, rfl, rfl, rfl, rfl⟩

/-- C6 (amended): pawn-structure scoring applies to each pawn
independently: −15 when another own pawn shares its file, −10 when no own
pawn stands on an adjacent file (both may apply), and a passed-pawn bonus
`20 + 5*advancement` exactly when no enemy pawn occupies files q−1, q, q+1
on a scanned rank strictly ahead — where advancement is `5 − r` for white
and `r + 5` for black (it is NOT 0 at the start rank: the code's formula
gives, e.g., 4 at the white start square `(0, 1)`). -/
theorem C6_pawn_structure (b : Board) (color : Color) (q r : Int) :
    ChessEngine.evaluate_pawn_structure b color =
      ((ChessEngine.pawnPositions b color).map
        (ChessEngine.pawnContrib b color
          (ChessEngine.pawnPositions b color))).sum ∧
    (ChessEngine._is_passed_pawn b q r color = true ↔
      ∀ q' r' : Int, (q' = q - 1 ∨ q' = q ∨ q' = q + 1) →
        ChessEngine.strictlyAhead color r r' →
        ChessEngine.get_tile b q' r' ≠
          some (some ((if color = Color.white then Color.black
            else Color.white), PieceName.pawn))) ∧
    ChessEngine.advancement Color.white r = 5 - r ∧
    ChessEngine.advancement Color.black r = r + 5 :=
  ⟨ChessEngine.evaluate_pawn_structure_eq b color,
   ChessEngine.is_passed_pawn_iff b q r color, rfl, rfl⟩

/-- C6 counterexample: `(0, 1)` is a starting-rank square of `PAWN_PST`
(bonus 0 there), yet the passed-pawn advancement of a white pawn on it is
`5 − 1 = 4`, not 0 — a lone white pawn there scores
`−10 (isolated) + 20 + 5·4 = 30`, where the claimed start-rank advancement
of 0 would give 10. -/
theorem C6_pawn_structure_counterexample :
    (⟨0, 1⟩, (0 : Int)) ∈ ChessEngine.PAWN_PST ∧
    ChessEngine.advancement Color.white 1 = 4 ∧
    ChessEngine.evaluate_pawn_structure testBoard Color.white = 30 ∧
    (30 : Int) ≠ -10 + (20 + 5 * 0) := by
  refine ⟨by decide, by decide, ?_, by decide⟩
  decide

/-- C7: Move ordering — `_order_moves` returns a permutation of its input
(no move discarded), sorted in stable descending order of the per-move
heuristic (stability: the moves of any fixed score keep their input
order); the heuristic is the additive sum of the capture, promotion and
centre bonuses, and a capture-promotion-centre move outscores any move
with a strict subset of those properties, all else equal. -/
theorem C7_move_ordering (env : Env) (board : Board) (ms : List Move)
    (k : Int) (move m1 m2 : Move) (attacker : Color × PieceName) (tt : Tile)
    (c1 c2 vc : Color) (vp : PieceName) (tt2 : Tile)
    (hfrom : ChessEngine.get_tile board move.1.q move.1.r =
      some (some attacker))
    (hto : ChessEngine.get_tile board move.2.q move.2.r = some tt)
    (h1f : ChessEngine.get_tile board m1.1.q m1.1.r =
      some (some (c1, PieceName.pawn)))
    (h1t : ChessEngine.get_tile board m1.2.q m1.2.r = some (some (vc, vp)))
    (h1p : env.is_promotion_square board m1.2 c1 = true)
    (h1c : m1.2 ∈ SearchEngine.center_hexes)
    (h2f : ChessEngine.get_tile board m2.1.q m2.1.r =
      some (some (c2, PieceName.pawn)))
    (h2t : ChessEngine.get_tile board m2.2.q m2.2.r = some tt2)
    (h2v : ∀ x, tt2 = some x → x.2 = vp)
    (hsub : ¬ (tt2.isSome = true ∧
      env.is_promotion_square board m2.2 c2 = true ∧
      m2.2 ∈ SearchEngine.center_hexes)) :
    (SearchEngine._order_moves env board ms).Perm ms ∧
    List.Pairwise
      (fun a b => SearchEngine.move_score env board b ≤
        SearchEngine.move_score env board a)
      (SearchEngine._order_moves env board ms) ∧
    (SearchEngine._order_moves env board ms).filter
        (fun mv => decide (SearchEngine.move_score env board mv = k)) =
      ms.filter
        (fun mv => decide (SearchEngine.move_score env board mv = k)) ∧
    SearchEngine.move_score env board move =
      SearchEngine.moveScoreClaim env board move attacker tt ∧
    SearchEngine.move_score env board m2 <
      SearchEngine.move_score env board m1 :=
  ⟨SearchEngine.sortDesc_perm (SearchEngine.move_score env board) ms,
   SearchEngine.sortDesc_pairwise (SearchEngine.move_score env board) ms,
   SearchEngine.sortDesc_filter (SearchEngine.move_score env board) k ms,
   SearchEngine.move_score_eq env board move attacker tt hfrom hto,
   SearchEngine.move_score_additive_gt env board m1 m2 c1 c2 vc vp tt2
     h1f h1t h1p h1c h2f h2t h2v hsub⟩

/-- C7 witness: on the fixture board the pawn's capture-promotion-centre
move outscores its quiet move, and ordering the two-move list is a
permutation of it. -/
theorem C7_move_ordering_witness :
    ChessEngine.get_tile bC7 2 2 =
      some (some (Color.white, PieceName.pawn)) ∧
    ChessEngine.get_tile bC7 0 0 =
      some (some (Color.black, PieceName.queen)) ∧
    ChessEngine.get_tile bC7 5 5 = some none ∧
    (SearchEngine._order_moves envPromo bC7 [m2fix, m1fix]).Perm
      [m2fix, m1fix] ∧
    SearchEngine.move_score envPromo bC7 m2fix <
      SearchEngine.move_score envPromo bC7 m1fix :=
  ⟨by decide, by decide, by decide,
   (C7_move_ordering envPromo bC7 [m2fix, m1fix] 0 m1fix m1fix m2fix
      (Color.white, PieceName.pawn) (some (Color.black, PieceName.queen))
      Color.white Color.white Color.black PieceName.queen none
      (by decide) (by decide) (by decide) (by decide) (by decide)
      (by decide) (by decide) (by decide) (fun x h => nomatch h)
      (by decide)).1,
   (C7_move_ordering envPromo bC7 [m2fix, m1fix] 0 m1fix m1fix m2fix
      (Color.white, PieceName.pawn) (some (Color.black, PieceName.queen))
      Color.white Color.white Color.black PieceName.queen none
      (by decide) (by decide) (by decide) (by decide) (by decide)
      (by decide) (by decide) (by decide) (fun x h => nomatch h)
      (by decide)).2.2.2.2⟩

/-- C8 (amended): `find_best_move` returns "no move" when the side to move
has no legal root move; conversely, provided the time budget has not
already expired at the first depth check and the first root-move check
(the code breaks out, keeping `best_move = None`, when the budget trips
before any root move is scored), a nonempty legal-move list yields some
legal move.  No exception-style escape exists: the function is total. -/
theorem C8_no_legal_move_semantics (env : Env) (b : Board) (depth : Nat)
    (t : Nat → Bool) (hd : 1 ≤ depth) (h0 : t 0 = false)
    (h1 : t 1 = false) :
    (SearchEngine._get_all_legal_moves env b b.current_turn = [] →
      (SearchEngine.find_best_move env b depth t).1 = none) ∧
    (SearchEngine._get_all_legal_moves env b b.current_turn ≠ [] →
      ∃ m, (SearchEngine.find_best_move env b depth t).1 = some m ∧
        m ∈ SearchEngine._get_all_legal_moves env b b.current_turn) := by
  constructor
  · intro h
    rw [SearchEngine.find_best_move]
    dsimp only
    rw [if_pos h]
  · intro h
    exact SearchEngine.find_best_move_some env b depth t h hd h0 h1

/-- C8 witness: on the fixture (one legal root move, fresh clock, depth 1)
the search returns a legal move. -/
theorem C8_no_legal_move_semantics_witness :
    1 ≤ 1 ∧ tOff 0 = false ∧ tOff 1 = false ∧
    SearchEngine._get_all_legal_moves testEnv testBoard
      testBoard.current_turn ≠ [] ∧
    (∃ m, (SearchEngine.find_best_move testEnv testBoard 1 tOff).1 =
        some m ∧
      m ∈ SearchEngine._get_all_legal_moves testEnv testBoard
        testBoard.current_turn) :=
  ⟨by decide, rfl, rfl, by decide,
   (C8_no_legal_move_semantics testEnv testBoard 1 tOff (by decide) rfl
      rfl).2 (by decide)⟩

/-- C8 counterexample: with the time budget already expired at the first
check, `find_best_move` returns `None` although the side to move has a
legal move — refuting "returns None if and only if there is no legal
move". -/
theorem C8_no_legal_move_semantics_counterexample :
    SearchEngine._get_all_legal_moves testEnv testBoard
      testBoard.current_turn ≠ [] ∧
    (SearchEngine.find_best_move testEnv testBoard 3 tOn).1 = none := by
  refine ⟨by decide, ?_⟩
  decide

/-- C9 (amended): the root moves are enumerated and ordered ONCE, before
the first depth of the iterative-deepening loop (not re-enumerated per
depth): the engine returns exactly the move of the value-semantics model
`find_best_move`, which enumerates once, then for each `current_depth`
from 1 to `depth` searches every root move at `current_depth − 1` with a
fresh `(-inf, +inf)` window and keeps the move whose score strictly
improves the best for the side to move. -/
theorem C9_iterative_deepening_enumeration (env : Env) (ref depth : Nat)
    (timeUp : Nat → Bool) (s : SState) (href : ref < s.heap.length) :
    (SearchEngine.find_best_move_s env ref depth timeUp s).1 =
      (SearchEngine.find_best_move env (readB s ref) depth timeUp).1 :=
  SearchEngine.find_best_move_s_sim env ref depth timeUp s href

/-- C9 witness: the fixture run agrees with the once-enumerated model. -/
theorem C9_iterative_deepening_enumeration_witness :
    0 < s0.heap.length ∧
    (SearchEngine.find_best_move_s testEnv 0 2 tOff s0).1 =
      (SearchEngine.find_best_move testEnv (readB s0 0) 2 tOff).1 :=
  ⟨by decide,
   C9_iterative_deepening_enumeration testEnv 0 2 tOff s0 (by decide)⟩

/-- A clock that expires exactly at the odd ticks — the per-root-move
checks of a depth-2 fixture run — so both depth iterations start but
neither scores a move. -/
def tC9 : Nat → Bool := fun k => decide (k % 2 = 1)

/-- C9 counterexample: the spec-modelled variant that re-enumerates the
root moves before every depth performs a different number of legal-move
enumerations than the code — over the same depth-2 run (both depth
iterations entered, no move scored) the code enumerates the root moves
once, the re-enumerating model once per depth. -/
theorem C9_iterative_deepening_enumeration_counterexample :
    (SearchEngine.find_best_move_s testEnv 0 2 tC9 s0).2.enum_calls = 1 ∧
    (SearchEngine.find_best_move_reenum_s testEnv 0 2 tC9
      s0).2.enum_calls = 2 :=
  ⟨rfl, rfl⟩

/-- C10 (amended): every `_minimax` call with remaining depth ≥ 1 points
`self.move_validator.board` and `self.move_validator.move_generator.board`
at its own (deep-copied) board argument or at a board allocated during the
call; and after `find_best_move` at depth ≥ 2 (with time to spare and at
least one legal root move) both references are equal and point at a board
allocated during the search — a search copy, not the caller's board
object.  (At depth exactly 1 this fails: the only `_minimax` calls run at
remaining depth 0 and never reassign the references.) -/
theorem C10_validator_reassignment (env : Env) (ref depth : Nat)
    (t : Nat → Bool) (s : SState) (ht : ∀ k, t k = false)
    (hd : 2 ≤ depth) (href : ref < s.heap.length)
    (hmoves : SearchEngine._get_all_legal_moves env (readB s ref)
      (readB s ref).current_turn ≠ []) :
    (∀ d alpha beta mx, 1 ≤ d →
      (SearchEngine.minimax_s env d ref alpha beta mx s).2.validator_board =
        (SearchEngine.minimax_s env d ref alpha beta mx
          s).2.generator_board ∧
      ((SearchEngine.minimax_s env d ref alpha beta mx
          s).2.validator_board = ref ∨
        s.heap.length ≤ (SearchEngine.minimax_s env d ref alpha beta mx
          s).2.validator_board)) ∧
    (SearchEngine.find_best_move_s env ref depth t s).2.validator_board =
      (SearchEngine.find_best_move_s env ref depth t s).2.generator_board ∧
    s.heap.length ≤
      (SearchEngine.find_best_move_s env ref depth t s).2.validator_board ∧
    (SearchEngine.find_best_move_s env ref depth t s).2.validator_board ≠
      ref := by
  have hv := SearchEngine.find_best_move_s_validator env ref depth t s ht
    hd hmoves
  exact ⟨fun d alpha beta mx hd1 =>
      SearchEngine.minimax_s_validator env d ref alpha beta mx s hd1,
    hv.1, hv.2, by omega⟩

/-- C10 witness: the depth-2 fixture run leaves both references equal,
pointing at a board allocated during the search (index ≥ 1), not at the
caller's object 0. -/
theorem C10_validator_reassignment_witness :
    2 ≤ 2 ∧ 0 < s0.heap.length ∧
    SearchEngine._get_all_legal_moves testEnv (readB s0 0)
      (readB s0 0).current_turn ≠ [] ∧
    (s0.heap.length ≤
      (SearchEngine.find_best_move_s testEnv 0 2 tOff
        s0).2.validator_board ∧
    (SearchEngine.find_best_move_s testEnv 0 2 tOff
      s0).2.validator_board ≠ 0) :=
  ⟨by decide, by decide, by decide,
   (C10_validator_reassignment testEnv 0 2 tOff s0 (fun _ => rfl)
      (by decide) (by decide) (by decide)).2.2⟩

/-- C10 counterexample: at depth exactly 1 the claim fails — after the
fixture run both references still hold their initial value 0, the caller's
board object, because `_minimax` is only ever called with remaining
depth 0 there and never reassigns them. -/
theorem C10_validator_reassignment_counterexample :
    (SearchEngine.find_best_move_s testEnv 0 1 tOff
      s0).2.validator_board = 0 ∧
    (SearchEngine.find_best_move_s testEnv 0 1 tOff
      s0).2.generator_board = 0 ∧
    s0.validator_board = 0 ∧ 0 < s0.heap.length :=
  ⟨rfl, rfl, rfl, by decide⟩
